import Mathlib

/-!
# A recursive, segment-based URL router

Shallow embedding of `router.go` and `scan.go`.

* A Go `string` is a `List Char`; the only characters the code inspects are
  the separator `/` and the wildcard sigil `:`.
* A Go `map[string]*Router` is an association list that is read by first match
  (`mapGet`) and written by replace-or-append (`mapSet`); a nil map and an
  empty map are both `[]` (the code only ever writes to initialised maps).
* A `*Router` returned by `Insert`/`InsertFunc` is the key path from the
  receiver to the node, next to the updated tree. Routers are finite trees of
  values: a node is a position in the tree, and `Merge` copies the subtrees it
  adopts.
* A handler is a value of an arbitrary type `H`; `nil` is `none`.
* Recursion that follows the scanner (`insertRec`, `serveRec`) carries a fuel
  argument; the entry points pass `Len + 1`, which is always enough
  (`insertRec_fuel`, `serveRec_fuel`).
-/

namespace router

/-- Go strings. -/
abbrev Str := List Char

/-! ## package strings -/

/-- Function `strings.HasPrefix`. -/
def HasPrefix (s pre : Str) : Bool := pre.isPrefixOf s

/-- Function `strings.TrimPrefix`. -/
def TrimPrefix (s pre : Str) : Str :=
  if HasPrefix s pre then s.drop pre.length else s

/-- Function `strings.Index`: index of the first occurrence of `substr` in `s`, or `-1`. -/
def Index : Str → Str → Int
  | [], substr => if substr = [] then 0 else -1
  | c :: cs, substr =>
    if substr.isPrefixOf (c :: cs) then 0
    else
      let i := Index cs substr
      if i < 0 then -1 else i + 1

/-- Slice expression `s[:k]`; `none` when the bound is out of range (a run-time panic in Go). -/
def sliceTo (s : Str) (k : Int) : Option Str :=
  if 0 ≤ k ∧ k ≤ (s.length : Int) then some (s.take k.toNat) else none

/-! ## scan.go -/

/-- Type `pathScanner`. -/
structure pathScanner where
  path : Str
deriving DecidableEq, Repr

namespace pathScanner

/-- Method `Reset`. -/
def Reset (_s : pathScanner) (path : Str) : pathScanner :=
  ⟨TrimPrefix path ['/']⟩

/-- Method `Len`. -/
def Len (s : pathScanner) : Nat := s.path.length

/-- Method `Next`: the returned element and the scanner afterwards.
The two slices `s.path[:i]` and `s.path[i+1:]` are taken at the index of an
occurrence of the separator, hence in range. -/
def Next (s : pathScanner) : Str × pathScanner :=
  if s.Len = 0 then ([], s)
  else
    let i := Index s.path ['/']
    if i < 0 then (s.path, ⟨[]⟩)
    else (s.path.take i.toNat, ⟨s.path.drop (i.toNat + 1)⟩)

end pathScanner

/-! ## Maps -/

/-- Map read `m[k]`. -/
def mapGet {V : Type} : List (Str × V) → Str → Option V
  | [], _ => none
  | (k', v) :: rest, k => if k' = k then some v else mapGet rest k

/-- Map write `m[k] = v`. -/
def mapSet {V : Type} : List (Str × V) → Str → V → List (Str × V)
  | [], k, v => [(k, v)]
  | (k', v') :: rest, k, v => if k' = k then (k, v) :: rest else (k', v') :: mapSet rest k v

/-! ## router.go -/

/-- Type `Router`: handler, child routes, wildcard name. -/
inductive Router (H : Type) where
  | mk (HandlerFunc : Option H) (routes : List (Str × Router H)) (wildcard : Str)

/-- The fields of `http.Request` the router touches: `URL.Path` and `URL.RawPath`. -/
structure Request where
  Path : Str
  RawPath : Str
deriving DecidableEq, Repr

/-- What one call of `ServeHTTP` does. -/
inductive Outcome (H : Type) where
  /-- a handler was called with the request in this state -/
  | served (f : H) (r : Request)
  /-- the function `http.NotFound` was called -/
  | notFound
  /-- slice bounds out of range -/
  | panicked
  /-- the fuel of the embedding ran out -/
  | outOfFuel
deriving DecidableEq, Repr

namespace Router

variable {H : Type}

/-- Field `HandlerFunc`. -/
def HandlerFunc : Router H → Option H
  | mk f _ _ => f

/-- Field `routes`. -/
def routes : Router H → List (Str × Router H)
  | mk _ rs _ => rs

/-- Field `wildcard`. -/
def wildcard : Router H → Str
  | mk _ _ w => w

/-- Assignment `d.HandlerFunc = f`. -/
def setHandlerFunc : Router H → Option H → Router H
  | mk _ rs w, f => mk f rs w

/-- Assignment `d.routes[k] = c`. -/
def setRoute : Router H → Str → Router H → Router H
  | mk f rs w, k, c => mk f (mapSet rs k c) w

/-- Assignment `d.wildcard = w`. -/
def setWildcard : Router H → Str → Router H
  | mk f rs _, w => mk f rs w

/-- The zero `Router`, also the result of `new(Router)` followed by `initRoutes`. -/
def empty : Router H := mk none [] []

/-- The node a key path leads to. -/
def nodeAt : Router H → List Str → Option (Router H)
  | d, [] => some d
  | d, k :: ks =>
    match mapGet d.routes k with
    | none => none
    | some c => nodeAt c ks

/-- An update made through a pointer to the node at a key path. -/
def modifyAt : Router H → List Str → (Router H → Router H) → Router H
  | d, [], g => g d
  | d, k :: ks, g =>
    match mapGet d.routes k with
    | none => d
    | some c => d.setRoute k (modifyAt c ks g)

mutual
/-- Method `mergeRec`. -/
def mergeRec : Router H → Router H → Router H
  | d, mk f2 rs2 _ =>
    mergeRange
      (match f2 with
       | some f => d.setHandlerFunc (some f)
       | none => d)
      rs2
/-- The loop `for elem, route2 := range router.routes` of `mergeRec`. -/
def mergeRange : Router H → List (Str × Router H) → Router H
  | d, [] => d
  | d, (elem, route2) :: rest =>
    match mapGet d.routes elem with
    | none => mergeRange (d.setRoute elem route2) rest
    | some route => mergeRange (d.setRoute elem (mergeRec route route2)) rest
end

/-- Method `Merge`. -/
def Merge (d router : Router H) : Router H := mergeRec d router

mutual
/-- Method `routesRec`; the result is what it appends to `*routes`. -/
def routesRec : Router H → Str → List Str
  | mk f rs w, pre =>
    (match f with
     | some _ => [pre]
     | none => []) ++ routesRange rs w pre
/-- The loop `for part, route := range d.routes` of `routesRec`. -/
def routesRange : List (Str × Router H) → Str → Str → List Str
  | [], _, _ => []
  | (part, route) :: rest, w, pre =>
    routesRec route (pre ++ ['/'] ++ (if part = [] then w else part)) ++ routesRange rest w pre
end

/-- Method `Routes`. -/
def Routes (d : Router H) : List Str := routesRec d []

/-- Method `insertRec`: the updated receiver and the key path of the returned node. -/
def insertRec : Nat → Router H → pathScanner → Router H × List Str
  | 0, d, _ => (d, [])
  | fuel + 1, d, sc =>
    let (elem, sc1) := sc.Next
    if elem = [] then (d, [])
    else
      let d1 := if HasPrefix elem [':'] then d.setWildcard elem else d
      let key := if HasPrefix elem [':'] then [] else elem
      let route :=
        match mapGet d1.routes key with
        | some route => route
        | none => empty
      let (route1, p) := insertRec fuel route sc1
      (d1.setRoute key route1, key :: p)

/-- Method `Insert`. -/
def Insert (d : Router H) (pattern : Str) : Router H × List Str :=
  let sc := pathScanner.Reset ⟨[]⟩ pattern
  insertRec (sc.Len + 1) d sc

/-- Method `InsertFunc`. -/
def InsertFunc (d : Router H) (pattern : Str) (f : Option H) : Router H × List Str :=
  let sc := pathScanner.Reset ⟨[]⟩ pattern
  let (d1, route) := insertRec (sc.Len + 1) d sc
  (d1.modifyAt route (fun n => n.setHandlerFunc f), route)

/-- A call `p.InsertFunc(pattern, f)` where `p` is a node returned earlier, at key path `at_`. -/
def InsertFuncAt (d : Router H) (at_ : List Str) (pattern : Str) (f : Option H) :
    Router H × List Str :=
  match d.nodeAt at_ with
  | none => (d, at_)
  | some n => (d.modifyAt at_ (fun m => (m.InsertFunc pattern f).1), at_ ++ (n.InsertFunc pattern f).2)

/-- Method `serveRec`. -/
def serveRec : Nat → Router H → pathScanner → Request → Outcome H
  | 0, _, _, _ => .outOfFuel
  | fuel + 1, d, sc, r =>
    let n := sc.Len
    let (elem, sc1) := sc.Next
    if elem = [] then
      match d.HandlerFunc with
      | none => .notFound
      | some f => .served f r
    else
      let found :=
        match mapGet d.routes elem with
        | some route => some route
        | none => mapGet d.routes []
      match found with
      | none => .notFound
      | some route =>
        match sliceTo r.Path ((n : Int) - (sc1.Len : Int)) with
        | none => .panicked
        | some pre =>
          let path := TrimPrefix r.Path pre
          let rawPath := TrimPrefix r.RawPath pre
          match (if path = [] then route.HandlerFunc else none) with
          | some f => .served f r
          | none => serveRec fuel route sc1 ⟨path, rawPath⟩

/-- Method `ServeHTTP`. -/
def ServeHTTP (d : Router H) (r : Request) : Outcome H :=
  if !HasPrefix r.Path ['/'] then .notFound
  else
    let r1 : Request := ⟨r.Path.drop 1, TrimPrefix r.RawPath ['/']⟩
    let sc := pathScanner.Reset ⟨[]⟩ r1.Path
    serveRec (sc.Len + 1) d sc r1

end Router

/-! ## Segments, and the tree read along segments -/

/-- The text before the first separator and the text after it. -/
def cut : Str → Str × Str
  | [] => ([], [])
  | c :: cs => if c = '/' then ([], cs) else ((c :: (cut cs).1), (cut cs).2)

/-- The segments of a string: `strings.Split(s, "/")`. -/
def splitSlash : Str → List Str
  | [] => [[]]
  | c :: cs =>
    if c = '/' then [] :: splitSlash cs
    else
      match splitSlash cs with
      | [] => [[c]]
      | s :: ss => (c :: s) :: ss

/-- The segments of `s` up to its first empty segment. -/
def scanned (s : Str) : List Str := (splitSlash s).takeWhile (fun seg => seg ≠ [])

/-- The map key of a pattern segment: the sentinel `""` for a wildcard segment. -/
def keyOf (seg : Str) : Str := if HasPrefix seg [':'] then [] else seg

namespace Outcome

/-- The handler an outcome called, if any. -/
def handler {H : Type} : Outcome H → Option H
  | served f _ => some f
  | _ => none

end Outcome

namespace Router

variable {H : Type}

/-- The handler of the node at a key path. -/
def handlerAt (d : Router H) (p : List Str) : Option H := (d.nodeAt p).bind HandlerFunc

/-- The child chosen for a segment: the literal child, else the wildcard child. -/
def child (d : Router H) (seg : Str) : Option (Router H) :=
  match mapGet d.routes seg with
  | some c => some c
  | none => mapGet d.routes []

/-- The node reached by choosing a child for each segment in turn. -/
def walk : Router H → List Str → Option (Router H)
  | d, [] => some d
  | d, seg :: segs =>
    match d.child seg with
    | none => none
    | some c => walk c segs

/-- Insertion along a list of segments: `insertRec` with the scanner read off. -/
def insertSegs : Router H → List Str → Router H × List Str
  | d, [] => (d, [])
  | d, elem :: rest =>
    let d1 := if HasPrefix elem [':'] then d.setWildcard elem else d
    let key := if HasPrefix elem [':'] then [] else elem
    let route :=
      match mapGet d1.routes key with
      | some route => route
      | none => empty
    ((d1.setRoute key (insertSegs route rest).1), key :: (insertSegs route rest).2)

end Router

/-! ## Notions used by the statements -/

/-- Function `strings.Join(segs, "/")`. -/
def joinSlash : List Str → Str
  | [] => []
  | [s] => s
  | s :: t :: rest => s ++ '/' :: joinSlash (t :: rest)

/-- The segments the scanner yields for `s`: one leading separator is dropped, then the
segments follow up to the first empty one. -/
def pathSegments (s : Str) : List Str := scanned (TrimPrefix s ['/'])

/-- Segment by segment: a wildcard segment faces a non-empty token, any other segment
faces itself. -/
def fits : List Str → List Str → Bool
  | [], [] => true
  | s :: ss, t :: ts =>
    (if HasPrefix s [':'] then decide (t ≠ []) else decide (t = s)) && fits ss ts
  | _, _ => false

/-- The string `Q` is the pattern `P` with each wildcard segment replaced by a non-empty
token that holds no separator. -/
def IsInstance (P Q : Str) : Prop := fits (splitSlash P) (splitSlash Q) = true

instance (P Q : Str) : Decidable (IsInstance P Q) := by
  unfold IsInstance; infer_instance

namespace Router

variable {H : Type}

/-- Lines 143 to 154 of `serveRec`: what is done once the child `route` is chosen, `n` being
the scanner length before `Next` and `sc1` the scanner after it. -/
def descend (fuel : Nat) (route : Router H) (n : Nat) (sc1 : pathScanner) (r : Request) :
    Outcome H :=
  match sliceTo r.Path ((n : Int) - (sc1.Len : Int)) with
  | none => .panicked
  | some pre =>
    let path := TrimPrefix r.Path pre
    let rawPath := TrimPrefix r.RawPath pre
    match (if path = [] then route.HandlerFunc else none) with
    | some f => .served f r
    | none => serveRec fuel route sc1 ⟨path, rawPath⟩

/-- Along the pattern segments `segs` and the path segments facing them: no token that
faces a wildcard segment is the key of a literal child of the node where it is matched. -/
def unshadowed : Router H → List Str → List Str → Bool
  | d, s :: ss, t :: ts =>
    (if HasPrefix s [':'] then (mapGet d.routes t).isNone else true) &&
      (match mapGet d.routes (keyOf s) with
       | some c => unshadowed c ss ts
       | none => true)
  | _, _, _ => true

mutual
/-- Number of nodes that carry a handler. -/
def handlerCount : Router H → Nat
  | mk f rs _ =>
    (match f with
     | some _ => 1
     | none => 0) + handlerCountRange rs
/-- Number of handler-carrying nodes below a list of children. -/
def handlerCountRange : List (Str × Router H) → Nat
  | [] => 0
  | (_, c) :: rest => handlerCount c + handlerCountRange rest
end

mutual
/-- Every node has pairwise distinct keys, as a Go map has. -/
def uniqueKeys : Router H → Bool
  | mk _ rs _ => uniqueKeysRange rs
/-- The keys of a list of children are pairwise distinct, and so below. -/
def uniqueKeysRange : List (Str × Router H) → Bool
  | [] => true
  | (k, c) :: rest => (mapGet rest k).isNone && uniqueKeys c && uniqueKeysRange rest
end

end Router

/-- The two handlers of `TestRouter`. -/
inductive TestHandler where
  | writeTest
  | writeId
deriving DecidableEq, Repr

/-- What a handler of `TestRouter` writes to the response. -/
def TestHandler.write : TestHandler → Request → Str
  | .writeTest, _ => "test".toList
  | .writeId, r => "id=".toList ++ r.Path

/-- The router `TestRouter` builds: the second insert is made on the node the first returns. -/
def testRouter : Router TestHandler :=
  let first := (Router.empty : Router TestHandler).InsertFunc "test".toList (some .writeTest)
  (first.1.InsertFuncAt first.2 ":id".toList (some .writeId)).1

namespace Router

variable {H : Type}

/-- The receiver after `InsertFunc` along the segments `segs`: `insertSegs`, then the
handler is set on the node reached. -/
def insertSegsFunc (d : Router H) (segs : List Str) (f : Option H) : Router H :=
  (d.insertSegs segs).1.modifyAt (d.insertSegs segs).2 (fun n => n.setHandlerFunc f)

/-- The receiver of `insertRec` once the wildcard name of the element is recorded. -/
def named (d : Router H) (elem : Str) : Router H :=
  if HasPrefix elem [':'] then d.setWildcard elem else d

/-- The child `insertRec` goes on with: the one under the key of the element, or a new one. -/
def nextRoute (d : Router H) (elem : Str) : Router H :=
  match mapGet d.routes (keyOf elem) with
  | some route => route
  | none => empty

end Router

/-- Each segment behind a separator: the route string `routesRec` builds along segments. -/
def slashed : List Str → Str
  | [] => []
  | s :: ss => '/' :: s ++ slashed ss

namespace Router

variable {H : Type}

/-- A chain of child nodes from `d` that matches the segments in order, each segment by the
literal child keyed by its text, or else by the wildcard child; `n` is the node it ends at. -/
inductive Chain : Router H → List Str → Router H → Prop where
  | done (d : Router H) : Chain d [] d
  | literal (d c n : Router H) (s : Str) (segs : List Str) :
      mapGet d.routes s = some c → Chain c segs n → Chain d (s :: segs) n
  | wildcard (d c n : Router H) (s : Str) (segs : List Str) :
      mapGet d.routes s = none → mapGet d.routes [] = some c → Chain c segs n →
      Chain d (s :: segs) n

/-- Some chain from `d` along the segments ends at a node that carries a handler. -/
def Routed (d : Router H) (segs : List Str) : Prop :=
  ∃ n f, Chain d segs n ∧ n.HandlerFunc = some f

end Router

/-- A router built by insertions: the patterns `a/b` and `c`. -/
def routerA : Router Nat :=
  (((Router.empty : Router Nat).InsertFunc "a/b".toList (some 1)).1.InsertFunc
    "c".toList (some 2)).1

/-- A router built by insertions: the patterns `a` and `:id`. -/
def routerB : Router Nat :=
  (((Router.empty : Router Nat).InsertFunc "a".toList (some 3)).1.InsertFunc
    ":id".toList (some 4)).1

/-- The elements `Next` yields, one call after another, until nothing of the text remains. -/
def scanAll : Nat → pathScanner → List Str
  | 0, _ => []
  | fuel + 1, sc => if sc.Len = 0 then [] else sc.Next.1 :: scanAll fuel sc.Next.2

namespace Router

variable {H : Type}

/-- Dispatch as the specification describes its variant without the short-circuit:
`serveRec` with lines 146 to 151 removed, so that the matched child is always entered and a
handler is only called at the empty-element check. -/
def serveRecPlain : Nat → Router H → pathScanner → Request → Outcome H
  | 0, _, _, _ => .outOfFuel
  | fuel + 1, d, sc, r =>
    let n := sc.Len
    let (elem, sc1) := sc.Next
    if elem = [] then
      match d.HandlerFunc with
      | none => .notFound
      | some f => .served f r
    else
      let found :=
        match mapGet d.routes elem with
        | some route => some route
        | none => mapGet d.routes []
      match found with
      | none => .notFound
      | some route =>
        match sliceTo r.Path ((n : Int) - (sc1.Len : Int)) with
        | none => .panicked
        | some pre =>
          let path := TrimPrefix r.Path pre
          let rawPath := TrimPrefix r.RawPath pre
          serveRecPlain fuel route sc1 ⟨path, rawPath⟩

/-- Method `ServeHTTP` over `serveRecPlain`. -/
def ServeHTTPPlain (d : Router H) (r : Request) : Outcome H :=
  if !HasPrefix r.Path ['/'] then .notFound
  else
    let r1 : Request := ⟨r.Path.drop 1, TrimPrefix r.RawPath ['/']⟩
    let sc := pathScanner.Reset ⟨[]⟩ r1.Path
    serveRecPlain (sc.Len + 1) d sc r1

/-- A backtracking search along the segments: at each node the literal child is tried, then
the wildcard child; the result is the first handler found at the end of the segments. -/
def backtrack : Router H → List Str → Option H
  | d, [] => d.HandlerFunc
  | d, s :: ss =>
    match
      (match mapGet d.routes s with
       | some c => backtrack c ss
       | none => none) with
    | some f => some f
    | none =>
      match mapGet d.routes [] with
      | some w => backtrack w ss
      | none => none

/-- The backtracking search along the segments owes its handler to a retry: at some node on
its way it finds no handler below the literal child keyed by the segment and then finds one
below the wildcard child. -/
def retry : Router H → List Str → Bool
  | _, [] => false
  | d, s :: ss =>
    match mapGet d.routes s with
    | some c =>
      match backtrack c ss with
      | some _ => retry c ss
      | none =>
        match mapGet d.routes [] with
        | some w => (backtrack w ss).isSome
        | none => false
    | none =>
      match mapGet d.routes [] with
      | some w => retry w ss
      | none => false

/-- The scanner and the request at the entry of each call of `serveRec`, in order. -/
def serveTrace : Nat → Router H → pathScanner → Request → List (pathScanner × Request)
  | 0, _, _, _ => []
  | fuel + 1, d, sc, r =>
    let n := sc.Len
    let (elem, sc1) := sc.Next
    if elem = [] then [(sc, r)]
    else
      let found :=
        match mapGet d.routes elem with
        | some route => some route
        | none => mapGet d.routes []
      match found with
      | none => [(sc, r)]
      | some route =>
        match sliceTo r.Path ((n : Int) - (sc1.Len : Int)) with
        | none => [(sc, r)]
        | some pre =>
          let path := TrimPrefix r.Path pre
          let rawPath := TrimPrefix r.RawPath pre
          match (if path = [] then route.HandlerFunc else none) with
          | some _ => [(sc, r)]
          | none => (sc, r) :: serveTrace fuel route sc1 ⟨path, rawPath⟩

/-- The scanner and the request at the entry of each call of `serveRec` that one call of
`ServeHTTP` makes. -/
def ServeHTTPTrace (d : Router H) (r : Request) : List (pathScanner × Request) :=
  if !HasPrefix r.Path ['/'] then []
  else
    let r1 : Request := ⟨r.Path.drop 1, TrimPrefix r.RawPath ['/']⟩
    let sc := pathScanner.Reset ⟨[]⟩ r1.Path
    serveTrace (sc.Len + 1) d sc r1

end Router

/-- A router built by insertions: the patterns `a/b` and `:x/c`. -/
def routerC : Router Nat :=
  (((Router.empty : Router Nat).InsertFunc "a/b".toList (some 1)).1.InsertFunc
    ":x/c".toList (some 2)).1

/-! # Theorems -/

/-! ## The scanner -/

theorem Index_slash_cons (c : Char) (cs : Str) :
    Index (c :: cs) ['/'] =
      if c = '/' then 0 else if Index cs ['/'] < 0 then -1 else Index cs ['/'] + 1 := by
  simp only [Index, List.isPrefixOf]
  by_cases h : c = '/'
  · subst h; simp
  · have : ('/' == c) = false := by simpa using fun h' => h h'.symm
    simp [h, this]

theorem Index_slash_ge (s : Str) : -1 ≤ Index s ['/'] := by
  induction s with
  | nil => simp [Index]
  | cons c cs ih =>
    rw [Index_slash_cons]
    split_ifs <;> omega

theorem Next_eq_cut (sc : pathScanner) :
    sc.Next = ((cut sc.path).1, ⟨(cut sc.path).2⟩) := by
  obtain ⟨s⟩ := sc
  have key : ∀ s : Str, s ≠ [] →
      (if Index s ['/'] < 0 then (s, (⟨[]⟩ : pathScanner))
        else (s.take (Index s ['/']).toNat, ⟨s.drop ((Index s ['/']).toNat + 1)⟩))
      = ((cut s).1, ⟨(cut s).2⟩) := by
    intro s
    induction s with
    | nil => intro h; exact absurd rfl h
    | cons c cs ih =>
      intro _
      rw [Index_slash_cons]
      by_cases hc : c = '/'
      · simp [hc, cut]
      · have hge := Index_slash_ge cs
        by_cases hcs : cs = []
        · subst hcs; simp [hc, cut, Index]
        · have ih' := ih hcs
          by_cases hneg : Index cs ['/'] < 0
          · simp only [hneg, if_true] at ih'
            simp only [hc, hneg, if_false, if_true, cut]
            have h1 : (-1 : Int) < 0 := by decide
            simp only [h1, if_true]
            injection ih' with h1 h2
            rw [← h1]
            injection h2 with h2
            rw [← h2]
          · simp only [hneg, if_false] at ih'
            simp only [hc, hneg, if_false, cut]
            have hnn : ¬ (Index cs ['/'] + 1 < 0) := by omega
            simp only [hnn, if_false]
            have ht : (Index cs ['/'] + 1).toNat = (Index cs ['/']).toNat + 1 := by omega
            rw [ht]
            injection ih' with h1 h2
            injection h2 with h2
            simp only [List.take_succ_cons, List.drop_succ_cons, h1, h2]
  by_cases hs : s = []
  · subst hs; simp [pathScanner.Next, pathScanner.Len, cut]
  · have := key s hs
    simp only [pathScanner.Next, pathScanner.Len]
    have hl : ¬ s.length = 0 := by simpa using hs
    simp only [hl, if_false]
    exact this

theorem cut_length (s : Str) :
    (cut s).1.length + (cut s).2.length + (if '/' ∈ s then 1 else 0) = s.length := by
  induction s with
  | nil => simp [cut]
  | cons c cs ih =>
    by_cases hc : c = '/'
    · subst hc; simp [cut]
    · have hc' : ¬ '/' = c := fun h => hc h.symm
      simp only [cut, hc, if_false, List.length_cons, List.mem_cons, hc', false_or]
      omega

theorem cut_snd_le (s : Str) : (cut s).2.length ≤ s.length := by
  have := cut_length s
  omega

theorem cut_snd_lt (s : Str) (h : (cut s).1 ≠ []) : (cut s).2.length < s.length := by
  have := cut_length s
  have : 0 < (cut s).1.length := List.length_pos.mpr h
  omega

theorem cut_fst_no_slash (s : Str) : '/' ∉ (cut s).1 := by
  induction s with
  | nil => simp [cut]
  | cons c cs ih =>
    by_cases hc : c = '/'
    · simp [cut, hc]
    · have hc' : ¬ '/' = c := fun h => hc h.symm
      simp [cut, hc, hc', ih]

theorem cut_of_no_slash (s : Str) (h : '/' ∉ s) : cut s = (s, []) := by
  induction s with
  | nil => simp [cut]
  | cons c cs ih =>
    have hc : ¬ c = '/' := fun e => h (by simp [e])
    have hcs : '/' ∉ cs := fun e => h (by simp [e])
    simp [cut, hc, ih hcs]

theorem cut_append_slash (a b : Str) (h : '/' ∉ a) : cut (a ++ '/' :: b) = (a, b) := by
  induction a with
  | nil => simp [cut]
  | cons c cs ih =>
    have hc : ¬ c = '/' := fun e => h (by simp [e])
    have hcs : '/' ∉ cs := fun e => h (by simp [e])
    simp [cut, hc, ih hcs]

theorem splitSlash_eq_cut (s : Str) :
    splitSlash s = (cut s).1 :: (if '/' ∈ s then splitSlash (cut s).2 else []) := by
  induction s with
  | nil => simp [splitSlash, cut]
  | cons c cs ih =>
    by_cases hc : c = '/'
    · subst hc; simp [splitSlash, cut]
    · have hc' : ¬ '/' = c := fun h => hc h.symm
      simp only [splitSlash, hc, if_false, cut, List.mem_cons, hc', false_or]
      rw [ih]

theorem scanned_nil : scanned [] = [] := by
  simp [scanned, splitSlash]

theorem scanned_eq_cut (s : Str) :
    scanned s = if (cut s).1 = [] then [] else (cut s).1 :: scanned (cut s).2 := by
  unfold scanned
  rw [splitSlash_eq_cut s]
  by_cases h1 : (cut s).1 = []
  · simp [List.takeWhile, h1]
  · simp only [List.takeWhile, h1, if_false, decide_not, decide_False, Bool.not_false]
    congr 1
    by_cases hs : '/' ∈ s
    · simp [hs]
    · have := cut_of_no_slash s hs
      simp [hs, this, splitSlash]

/-! ## Map reads and writes, field updates -/

theorem mapGet_mapSet_same {V : Type} (m : List (Str × V)) (k : Str) (v : V) :
    mapGet (mapSet m k v) k = some v := by
  induction m with
  | nil => simp [mapSet, mapGet]
  | cons a m ih =>
    obtain ⟨k', v'⟩ := a
    by_cases h : k' = k
    · simp [mapSet, mapGet, h]
    · simp [mapSet, mapGet, h, ih]

theorem mapGet_mapSet_other {V : Type} (m : List (Str × V)) (k k2 : Str) (v : V) (h : k ≠ k2) :
    mapGet (mapSet m k v) k2 = mapGet m k2 := by
  induction m with
  | nil => simp [mapSet, mapGet, h]
  | cons a m ih =>
    obtain ⟨k', v'⟩ := a
    by_cases h1 : k' = k
    · subst h1; simp [mapSet, mapGet, h]
    · by_cases h2 : k' = k2
      · subst h2; simp [mapSet, mapGet, h1]
      · simp [mapSet, mapGet, h1, h2, ih]

theorem mapSet_mapSet {V : Type} (m : List (Str × V)) (k : Str) (v v2 : V) :
    mapSet (mapSet m k v) k v2 = mapSet m k v2 := by
  induction m with
  | nil => simp [mapSet]
  | cons a m ih =>
    obtain ⟨k', v'⟩ := a
    by_cases h : k' = k
    · simp [mapSet, h]
    · simp [mapSet, h, ih]

namespace Router

variable {H : Type}

@[simp] theorem routes_setRoute (d : Router H) (k : Str) (c : Router H) :
    (d.setRoute k c).routes = mapSet d.routes k c := by
  cases d; rfl

@[simp] theorem routes_setWildcard (d : Router H) (w : Str) :
    (d.setWildcard w).routes = d.routes := by
  cases d; rfl

@[simp] theorem routes_setHandlerFunc (d : Router H) (f : Option H) :
    (d.setHandlerFunc f).routes = d.routes := by
  cases d; rfl

@[simp] theorem HandlerFunc_setRoute (d : Router H) (k : Str) (c : Router H) :
    (d.setRoute k c).HandlerFunc = d.HandlerFunc := by
  cases d; rfl

@[simp] theorem HandlerFunc_setWildcard (d : Router H) (w : Str) :
    (d.setWildcard w).HandlerFunc = d.HandlerFunc := by
  cases d; rfl

@[simp] theorem HandlerFunc_setHandlerFunc (d : Router H) (f : Option H) :
    (d.setHandlerFunc f).HandlerFunc = f := by
  cases d; rfl

@[simp] theorem wildcard_setRoute (d : Router H) (k : Str) (c : Router H) :
    (d.setRoute k c).wildcard = d.wildcard := by
  cases d; rfl

@[simp] theorem wildcard_setWildcard (d : Router H) (w : Str) :
    (d.setWildcard w).wildcard = w := by
  cases d; rfl

@[simp] theorem wildcard_setHandlerFunc (d : Router H) (f : Option H) :
    (d.setHandlerFunc f).wildcard = d.wildcard := by
  cases d; rfl

theorem setRoute_setRoute (d : Router H) (k : Str) (c c2 : Router H) :
    (d.setRoute k c).setRoute k c2 = d.setRoute k c2 := by
  cases d; simp [setRoute, mapSet_mapSet]

/-! ## Insertion follows the scanned segments -/

theorem insertRec_eq_insertSegs (fuel : Nat) (d : Router H) (sc : pathScanner)
    (h : sc.Len < fuel) : insertRec fuel d sc = insertSegs d (scanned sc.path) := by
  induction fuel generalizing d sc with
  | zero => omega
  | succ fuel ih =>
    rw [insertRec, Next_eq_cut, scanned_eq_cut]
    by_cases he : (cut sc.path).1 = []
    · simp [he, insertSegs]
    · have hlt := cut_snd_lt sc.path he
      simp only [he, if_false]
      rw [insertSegs]
      rw [ih]
      simp only [pathScanner.Len] at h ⊢
      omega

theorem insertRec_fuel (f1 f2 : Nat) (d : Router H) (sc : pathScanner)
    (h1 : sc.Len < f1) (h2 : sc.Len < f2) : insertRec f1 d sc = insertRec f2 d sc := by
  rw [insertRec_eq_insertSegs f1 d sc h1, insertRec_eq_insertSegs f2 d sc h2]

end Router

/-! ## Dispatch follows the scanned segments -/

theorem TrimPrefix_take (l : Str) (k : Nat) (h : k ≤ l.length) :
    TrimPrefix l (l.take k) = l.drop k := by
  have hp : HasPrefix l (l.take k) = true := by
    simp only [HasPrefix]
    exact List.isPrefixOf_iff_prefix.mpr (List.take_prefix k l)
  simp [TrimPrefix, hp, List.length_take, h]

theorem TrimPrefix_length_le (l pre : Str) : (TrimPrefix l pre).length ≤ l.length := by
  unfold TrimPrefix
  by_cases h : HasPrefix l pre = true
  · rw [if_pos h]; simp
  · rw [if_neg h]

theorem sliceTo_sub (l : Str) (n m : Nat) (hm : m ≤ n) (hn : n ≤ l.length) :
    sliceTo l ((n : Int) - (m : Int)) = some (l.take (n - m)) := by
  have h1 : (0 : Int) ≤ (n : Int) - (m : Int) := by omega
  have h2 : (n : Int) - (m : Int) ≤ (l.length : Int) := by omega
  have h3 : ((n : Int) - (m : Int)).toNat = n - m := by omega
  simp [sliceTo, h1, h2, h3]

namespace Router

variable {H : Type}

theorem walk_nil (d : Router H) : walk d [] = some d := rfl

theorem serveRec_spec (fuel : Nat) (d : Router H) (sc : pathScanner) (r : Request)
    (h1 : sc.Len < fuel) (h2 : sc.Len ≤ r.Path.length) :
    match (walk d (scanned sc.path)).bind HandlerFunc with
    | some f => ∃ r1, serveRec fuel d sc r = .served f r1
    | none => serveRec fuel d sc r = .notFound := by
  induction fuel generalizing d sc r with
  | zero => omega
  | succ fuel ih =>
    rw [serveRec, Next_eq_cut, scanned_eq_cut]
    by_cases he : (cut sc.path).1 = []
    · simp only [he, if_true, walk, Option.bind]
      cases hf : d.HandlerFunc with
      | none => simp
      | some f => exact ⟨r, by simp⟩
    · have hlt := cut_snd_lt sc.path he
      simp only [he, if_false, walk, child]
      cases hc : (match mapGet d.routes (cut sc.path).1 with
          | some c => some c
          | none => mapGet d.routes []) with
      | none => simp
      | some route =>
        simp only [pathScanner.Len] at h1 h2 ⊢
        rw [sliceTo_sub r.Path _ _ (Nat.le_of_lt hlt) h2]
        simp only
        rw [TrimPrefix_take r.Path _ (by omega)]
        have hrec := ih route ⟨(cut sc.path).2⟩
          ⟨r.Path.drop (sc.path.length - (cut sc.path).2.length),
            TrimPrefix r.RawPath (r.Path.take (sc.path.length - (cut sc.path).2.length))⟩
          (by simp only [pathScanner.Len]; omega)
          (by simp only [pathScanner.Len, List.length_drop]; omega)
        by_cases hp : r.Path.drop (sc.path.length - (cut sc.path).2.length) = []
        · cases hf : route.HandlerFunc with
          | some f =>
            have hlen : r.Path.length ≤ sc.path.length - (cut sc.path).2.length :=
              List.drop_eq_nil_iff.mp hp
            have hnil : (cut sc.path).2 = [] := List.length_eq_zero.mp (by omega)
            have hle : r.Path.length ≤ sc.path.length := by omega
            simp [hp, hf, hnil, scanned_nil, walk, hle]
          | none =>
            simp only [hp, hf, if_true]
            rw [hp] at hrec
            exact hrec
        · simp only [hp, if_false]
          exact hrec

theorem serveRec_fuel (f1 f2 : Nat) (d : Router H) (sc : pathScanner) (r : Request)
    (h1 : sc.Len < f1) (h2 : sc.Len < f2) : serveRec f1 d sc r = serveRec f2 d sc r := by
  induction f1 generalizing f2 d sc r with
  | zero => omega
  | succ f1 ih =>
    cases f2 with
    | zero => omega
    | succ f2 =>
      rw [serveRec, serveRec, Next_eq_cut]
      by_cases he : (cut sc.path).1 = []
      · simp [he]
      · have hlt := cut_snd_lt sc.path he
        simp only [he, if_false]
        have hrec : ∀ route r1, serveRec f1 route ⟨(cut sc.path).2⟩ r1
            = serveRec f2 route ⟨(cut sc.path).2⟩ r1 := fun route r1 =>
          ih f2 route _ r1 (by simp only [pathScanner.Len] at h1 ⊢; omega)
            (by simp only [pathScanner.Len] at h2 ⊢; omega)
        simp only [hrec]

/-- The elements the scanner of `ServeHTTP` yields for a request path. -/
theorem ServeHTTP_spec (d : Router H) (r : Request) (hp : HasPrefix r.Path ['/'] = true) :
    match (walk d (scanned (TrimPrefix (r.Path.drop 1) ['/']))).bind HandlerFunc with
    | some f => ∃ r1, ServeHTTP d r = .served f r1
    | none => ServeHTTP d r = .notFound := by
  simp only [ServeHTTP, hp, Bool.not_true, Bool.false_eq_true, if_false, pathScanner.Reset]
  apply serveRec_spec
  · exact Nat.lt_succ_self _
  · exact TrimPrefix_length_le _ _

end Router

/-! ## One step of dispatch, paths without a leading separator -/

namespace Router

variable {H : Type}

theorem serveRec_eq_descend (fuel : Nat) (d : Router H) (sc : pathScanner) (r : Request)
    (hs : sc.Next.1 ≠ []) :
    serveRec (fuel + 1) d sc r =
      match d.child sc.Next.1 with
      | none => .notFound
      | some route => descend fuel route sc.Len sc.Next.2 r := by
  rw [serveRec]
  simp only [hs, if_false, child, descend]

/-- C3: at a node `d` with a non-empty next segment `s`, dispatch continues in the literal
child keyed by `s` when there is one (whatever the wildcard child is), in the wildcard child
when there is no literal child keyed by `s`, and is not-found when there is neither. -/
theorem C3_literal_before_wildcard (fuel : Nat) (d : Router H) (sc sc1 : pathScanner)
    (r : Request) (s : Str) (hnext : sc.Next = (s, sc1)) (hs : s ≠ []) :
    (∀ c, mapGet d.routes s = some c →
        serveRec (fuel + 1) d sc r = descend fuel c sc.Len sc1 r) ∧
    (∀ w, mapGet d.routes s = none → mapGet d.routes [] = some w →
        serveRec (fuel + 1) d sc r = descend fuel w sc.Len sc1 r) ∧
    (mapGet d.routes s = none → mapGet d.routes [] = none →
        serveRec (fuel + 1) d sc r = .notFound) := by
  have hs1 : sc.Next.1 ≠ [] := by rw [hnext]; exact hs
  have key := serveRec_eq_descend fuel d sc r hs1
  rw [hnext] at key
  simp only [child] at key
  refine ⟨?_, ?_, ?_⟩
  · intro c hc
    rw [key, hc]
  · intro w hl hw
    rw [key, hl, hw]
  · intro hl hw
    rw [key, hl, hw]

/-- C4: a path that does not begin with the separator is not-found, whatever the router. -/
theorem C4_no_leading_slash (d : Router H) (r : Request)
    (h : ∀ t, r.Path ≠ '/' :: t) : ServeHTTP d r = .notFound := by
  have hp : HasPrefix r.Path ['/'] = false := by
    cases hr : r.Path with
    | nil => rfl
    | cons c t =>
      have hc : c ≠ '/' := fun e => h t (by rw [hr, e])
      have : ('/' == c) = false := by simpa using fun e => hc e.symm
      simp [HasPrefix, List.isPrefixOf, this]
  simp [ServeHTTP, hp]

end Router

/-- Witness for C3: a node with the literal child `a` and a wildcard child, next segment `a`. -/
theorem C3_literal_before_wildcard_witness :
    Router.serveRec 2 (Router.mk (none : Option Nat)
        [("a".toList, Router.mk (some 1) [] []), ([], Router.mk (some 2) [] [])]
        ":x".toList) ⟨"a/b".toList⟩ ⟨"a/b".toList, []⟩
      = Router.descend 1 (Router.mk (some 1) [] []) 3 ⟨"b".toList⟩ ⟨"a/b".toList, []⟩ :=
  (Router.C3_literal_before_wildcard 1 (Router.mk (none : Option Nat)
      [("a".toList, Router.mk (some 1) [] []), ([], Router.mk (some 2) [] [])] ":x".toList)
      ⟨"a/b".toList⟩ ⟨"b".toList⟩ ⟨"a/b".toList, []⟩ "a".toList (by decide) (by decide)).1
    (Router.mk (some 1) [] []) rfl

/-- Witness for C4: the path `test` on a router with a handler on the root and on `test`. -/
theorem C4_no_leading_slash_witness :
    Router.ServeHTTP ((Router.mk (some 7) [] [] : Router Nat).InsertFunc "test".toList (some 1)).1
      ⟨"test".toList, []⟩ = .notFound :=
  Router.C4_no_leading_slash _ ⟨"test".toList, []⟩ (by intro t h; simp at h)

theorem testRouter_eq :
    testRouter = Router.mk none
      [("test".toList, Router.mk (some .writeTest)
          [([], Router.mk (some .writeId) [] [])] ":id".toList)] [] := by
  rfl

/-- C2: on the router of `TestRouter`, the path `/test/` followed by a non-empty token `t`
without separator calls the second handler with request path `t`, which writes `id=` and `t`. -/
theorem C2_test_router (t raw : Str) (ht : t ≠ []) (hs : '/' ∉ t) :
    ∃ raw1,
      Router.ServeHTTP testRouter ⟨"/test/".toList ++ t, raw⟩
        = .served TestHandler.writeId ⟨t, raw1⟩ ∧
      TestHandler.write .writeId ⟨t, raw1⟩ = "id=".toList ++ t := by
  refine ⟨TrimPrefix (TrimPrefix raw ['/']) "test/".toList, ?_, rfl⟩
  have hcut1 : cut ("test".toList ++ '/' :: t) = ("test".toList, t) :=
    cut_append_slash _ _ (by decide)
  have hcut2 : cut t = (t, []) := cut_of_no_slash t hs
  have hlen : 0 < t.length := List.length_pos.mpr ht
  rw [testRouter_eq]
  simp only [Router.ServeHTTP, pathScanner.Reset]
  have e1 : ("/test/".toList ++ t : Str) = '/' :: ("test".toList ++ '/' :: t) := by rfl
  have e2 : HasPrefix ('/' :: ("test".toList ++ '/' :: t)) ['/'] = true := by rfl
  have e3 : TrimPrefix ("test".toList ++ '/' :: t) ['/'] = "test".toList ++ '/' :: t := by rfl
  rw [e1]
  simp only [e2, Bool.not_true, Bool.false_eq_true, if_false, List.drop_one, List.tail_cons, e3]
  rw [Router.serveRec, Next_eq_cut]
  simp only [hcut1]
  have e4 : ("test".toList : Str) ≠ [] := by decide
  simp only [e4, if_false, Router.routes, mapGet, if_true, pathScanner.Len]
  have e5 : sliceTo ("test".toList ++ '/' :: t)
      ((("test".toList ++ '/' :: t : Str).length : Int) - (t.length : Int))
      = some "test/".toList := by
    have := sliceTo_sub ("test".toList ++ '/' :: t) ("test".toList ++ '/' :: t : Str).length
      t.length (by simp; omega) (Nat.le_refl _)
    rw [this]
    have h5 : ("test".toList ++ '/' :: t : Str).length - t.length = 5 := by
      simp [List.length_append]; omega
    rw [h5]
    rfl
  rw [e5]
  have e6 : TrimPrefix ("test".toList ++ '/' :: t) "test/".toList = t := by
    have : ("test".toList ++ '/' :: t : Str) = "test/".toList ++ t := by rfl
    rw [this]
    simp [TrimPrefix, HasPrefix, List.isPrefixOf_iff_prefix]
  simp only [e6, ht, if_false]
  rw [Router.serveRec_fuel _ (t.length + 1) _ _ _
    (by simp [pathScanner.Len]; omega) (by simp [pathScanner.Len])]
  rw [Router.serveRec, Next_eq_cut]
  simp only [hcut2, ht, if_false, Router.routes, mapGet, pathScanner.Len]
  have e7 : ¬ (([] : Str) = t) := fun e => ht e.symm
  simp only [e7, if_false, if_true]
  have e8 : sliceTo t ((t.length : Int) - (([] : Str).length : Int)) = some t := by
    have := sliceTo_sub t t.length 0 (Nat.zero_le _) (Nat.le_refl _)
    simpa using this
  rw [e8]
  have e9 : TrimPrefix t t = [] := by
    simp [TrimPrefix, HasPrefix, List.isPrefixOf_iff_prefix]
  simp only [e9, if_true, Router.HandlerFunc]

/-- Witness for C2: the identifier of `TestRouter`. -/
theorem C2_test_router_witness :
    ∃ raw1,
      Router.ServeHTTP testRouter
          ⟨"/test/".toList ++ "00000000-0000-0000-0000-000000000000".toList, []⟩
        = .served TestHandler.writeId ⟨"00000000-0000-0000-0000-000000000000".toList, raw1⟩ ∧
      TestHandler.write .writeId ⟨"00000000-0000-0000-0000-000000000000".toList, raw1⟩
        = "id=".toList ++ "00000000-0000-0000-0000-000000000000".toList :=
  C2_test_router "00000000-0000-0000-0000-000000000000".toList [] (by decide) (by decide)

namespace Router

variable {H : Type}

/-! ## Insertion along segments -/

theorem routes_named (d : Router H) (elem : Str) : (d.named elem).routes = d.routes := by
  unfold named; split_ifs <;> simp

theorem HandlerFunc_named (d : Router H) (elem : Str) :
    (d.named elem).HandlerFunc = d.HandlerFunc := by
  unfold named; split_ifs <;> simp

theorem insertSegs_cons (d : Router H) (elem : Str) (rest : List Str) :
    d.insertSegs (elem :: rest) =
      ((d.named elem).setRoute (keyOf elem) ((d.nextRoute elem).insertSegs rest).1,
        keyOf elem :: ((d.nextRoute elem).insertSegs rest).2) := by
  rw [insertSegs]
  simp only [named, nextRoute, keyOf]
  by_cases h : HasPrefix elem [':'] = true
  · simp [h]
  · simp [h]

theorem insertSegs_snd (d : Router H) (segs : List Str) :
    (d.insertSegs segs).2 = segs.map keyOf := by
  induction segs generalizing d with
  | nil => rfl
  | cons s ss ih => rw [insertSegs_cons]; simp [ih]

theorem insertSegsFunc_nil (d : Router H) (f : Option H) :
    d.insertSegsFunc [] f = d.setHandlerFunc f := rfl

theorem insertSegsFunc_cons (d : Router H) (elem : Str) (rest : List Str) (f : Option H) :
    d.insertSegsFunc (elem :: rest) f =
      (d.named elem).setRoute (keyOf elem) ((d.nextRoute elem).insertSegsFunc rest f) := by
  unfold insertSegsFunc
  rw [insertSegs_cons]
  simp only [modifyAt, routes_setRoute, mapGet_mapSet_same, setRoute_setRoute]

theorem InsertFunc_eq (d : Router H) (P : Str) (f : Option H) :
    d.InsertFunc P f = (d.insertSegsFunc (pathSegments P) f, (pathSegments P).map keyOf) := by
  simp only [InsertFunc, pathScanner.Reset]
  rw [insertRec_eq_insertSegs _ _ _ (Nat.lt_succ_self _)]
  simp only [insertSegsFunc, pathSegments, insertSegs_snd]

theorem setWildcard_self (d : Router H) : d.setWildcard d.wildcard = d := by
  cases d; rfl

theorem named_setRoute_named (d : Router H) (elem k : Str) (c : Router H) :
    ((d.named elem).setRoute k c).named elem = (d.named elem).setRoute k c := by
  unfold named
  by_cases h : HasPrefix elem [':'] = true
  · simp only [h, if_true]
    cases d; rfl
  · simp [h]

theorem nextRoute_setRoute (d : Router H) (elem : Str) (c : Router H) :
    (d.setRoute (keyOf elem) c).nextRoute elem = c := by
  simp [nextRoute, mapGet_mapSet_same]

theorem insertSegsFunc_twice (d : Router H) (segs : List Str) (f1 f2 : Option H) :
    (d.insertSegsFunc segs f1).insertSegsFunc segs f2 = d.insertSegsFunc segs f2 := by
  induction segs generalizing d with
  | nil => cases d; rfl
  | cons s ss ih =>
    rw [insertSegsFunc_cons d s ss f1, insertSegsFunc_cons _ s ss f2, named_setRoute_named,
      nextRoute_setRoute, setRoute_setRoute, ih, insertSegsFunc_cons]

theorem nodeAt_insertSegsFunc (d : Router H) (segs : List Str) (f : Option H) :
    ∃ n, (d.insertSegsFunc segs f).nodeAt (segs.map keyOf) = some n ∧ n.HandlerFunc = f := by
  induction segs generalizing d with
  | nil => exact ⟨_, rfl, by simp [insertSegsFunc_nil]⟩
  | cons s ss ih =>
    obtain ⟨n, hn, hf⟩ := ih (d.nextRoute s)
    refine ⟨n, ?_, hf⟩
    rw [insertSegsFunc_cons]
    simp only [List.map_cons, nodeAt, routes_setRoute, mapGet_mapSet_same]
    exact hn

/-- C6: `InsertFunc(P, H1)` followed by `InsertFunc(P, H2)` gives the router and the node that
`InsertFunc(P, H2)` alone gives, and that node carries `H2`. -/
theorem C6_reinsert_replaces_handler (d : Router H) (P : Str) (f1 f2 : Option H) :
    (d.InsertFunc P f1).1.InsertFunc P f2 = d.InsertFunc P f2 ∧
    (d.InsertFunc P f2).1.handlerAt (d.InsertFunc P f2).2 = f2 := by
  constructor
  · simp only [InsertFunc_eq, insertSegsFunc_twice]
  · simp only [InsertFunc_eq, handlerAt]
    obtain ⟨n, hn, hf⟩ := nodeAt_insertSegsFunc d (pathSegments P) f2
    rw [hn]
    exact hf

end Router

/-! ## Patterns made of non-empty segments -/

theorem slashed_eq_joinSlash (segs : List Str) (h : segs ≠ []) :
    slashed segs = '/' :: joinSlash segs := by
  induction segs with
  | nil => exact absurd rfl h
  | cons s ss ih =>
    cases ss with
    | nil => simp [slashed, joinSlash]
    | cons t rest =>
      have := ih (by simp)
      simp only [slashed, joinSlash] at this ⊢
      rw [this]
      simp

theorem TrimPrefix_slash_of_head (s : Str) (h : ∀ t, s ≠ '/' :: t) :
    TrimPrefix s ['/'] = s := by
  cases s with
  | nil => rfl
  | cons c t =>
    have hc : c ≠ '/' := fun e => h t (by rw [e])
    have : ('/' == c) = false := by simpa using fun e => hc e.symm
    simp [TrimPrefix, HasPrefix, List.isPrefixOf, this]

theorem scanned_joinSlash (segs : List Str) (hseg : ∀ s ∈ segs, s ≠ [] ∧ '/' ∉ s) :
    scanned (joinSlash segs) = segs := by
  induction segs with
  | nil => simp [joinSlash, scanned_nil]
  | cons s ss ih =>
    have hs := hseg s (by simp)
    cases ss with
    | nil =>
      rw [joinSlash, scanned_eq_cut, cut_of_no_slash s hs.2]
      simp [hs.1, scanned_nil]
    | cons t rest =>
      rw [joinSlash, scanned_eq_cut, cut_append_slash s _ hs.2]
      simp only [hs.1, if_false]
      rw [ih (fun x hx => hseg x (by simp [List.mem_cons] at hx ⊢; exact Or.inr hx))]

theorem joinSlash_head (segs : List Str) (hseg : ∀ s ∈ segs, s ≠ [] ∧ '/' ∉ s) :
    ∀ t, joinSlash segs ≠ '/' :: t := by
  intro t
  cases segs with
  | nil => simp [joinSlash]
  | cons s ss =>
    have hs := hseg s (by simp)
    cases s with
    | nil => exact absurd rfl hs.1
    | cons c cs =>
      have hc : c ≠ '/' := fun e => hs.2 (by simp [e])
      cases ss with
      | nil => simp [joinSlash, hc]
      | cons u rest => simp [joinSlash, hc]

theorem pathSegments_joinSlash (segs : List Str) (hseg : ∀ s ∈ segs, s ≠ [] ∧ '/' ∉ s) :
    pathSegments (joinSlash segs) = segs := by
  unfold pathSegments
  rw [TrimPrefix_slash_of_head _ (joinSlash_head segs hseg), scanned_joinSlash segs hseg]

namespace Router

variable {H : Type}

/-! ## Enumeration -/

theorem routesRec_eq (d : Router H) (pre : Str) :
    routesRec d pre =
      (match d.HandlerFunc with
       | some _ => [pre]
       | none => []) ++ routesRange d.routes d.wildcard pre := by
  cases d; rfl

theorem mem_routesRange (rs : List (Str × Router H)) (w pre : Str) (k : Str) (c : Router H)
    (x : Str) (hk : (k, c) ∈ rs)
    (hx : x ∈ routesRec c (pre ++ ['/'] ++ (if k = [] then w else k))) :
    x ∈ routesRange rs w pre := by
  induction rs with
  | nil => cases hk
  | cons a rest ih =>
    obtain ⟨k', c'⟩ := a
    rw [routesRange]
    rcases List.mem_cons.mp hk with h | h
    · injection h with h1 h2
      subst h1; subst h2
      exact List.mem_append_left _ hx
    · exact List.mem_append_right _ (ih h)

theorem mem_mapSet {V : Type} (m : List (Str × V)) (k : Str) (v : V) : (k, v) ∈ mapSet m k v := by
  induction m with
  | nil => simp [mapSet]
  | cons a m ih =>
    obtain ⟨k', v'⟩ := a
    by_cases h : k' = k
    · simp [mapSet, h]
    · simp [mapSet, h, ih]

theorem named_name (d : Router H) (s : Str) (hs : s ≠ []) :
    (if keyOf s = [] then (d.named s).wildcard else keyOf s) = s := by
  unfold keyOf named
  by_cases h : HasPrefix s [':'] = true
  · simp [h]
  · simp [h, hs]

theorem mem_routesRec_insertSegsFunc (d : Router H) (segs : List Str) (pre : Str) (f : H)
    (hseg : ∀ s ∈ segs, s ≠ []) :
    pre ++ slashed segs ∈ routesRec (d.insertSegsFunc segs (some f)) pre := by
  induction segs generalizing d pre with
  | nil =>
    rw [insertSegsFunc_nil, routesRec_eq]
    simp [slashed]
  | cons s ss ih =>
    have hs := hseg s (by simp)
    rw [insertSegsFunc_cons, routesRec_eq]
    apply List.mem_append_right
    simp only [routes_setRoute, wildcard_setRoute]
    apply mem_routesRange _ _ _ (keyOf s) _ _ (mem_mapSet _ _ _)
    rw [named_name d s hs]
    have := ih (d.nextRoute s) (pre ++ ['/'] ++ s) (fun x hx => hseg x (by simp [hx]))
    simpa [slashed, List.append_assoc] using this

/-- C10: after `InsertFunc(P, H)` with `H` present, for `P` one or more non-empty segments
joined by single separators, `Routes()` lists the separator followed by `P`, wildcard
segments under the names given in `P`. -/
theorem C10_routes_lists_inserted (d : Router H) (segs : List Str) (f : H)
    (hne : segs ≠ []) (hseg : ∀ s ∈ segs, s ≠ [] ∧ '/' ∉ s) :
    '/' :: joinSlash segs ∈ Routes (d.InsertFunc (joinSlash segs) (some f)).1 := by
  rw [InsertFunc_eq, pathSegments_joinSlash segs hseg, ← slashed_eq_joinSlash segs hne]
  have := mem_routesRec_insertSegsFunc d segs [] f (fun s hs => (hseg s hs).1)
  simpa [Routes] using this

theorem routesRec_mk (f : Option H) (rs : List (Str × Router H)) (w pre : Str) :
    routesRec (mk f rs w) pre =
      (match f with
       | some _ => [pre]
       | none => []) ++ routesRange rs w pre := rfl

theorem handlerCount_mk (f : Option H) (rs : List (Str × Router H)) (w : Str) :
    handlerCount (mk f rs w) =
      (match f with
       | some _ => 1
       | none => 0) + handlerCountRange rs := rfl

mutual
theorem routesRec_length : ∀ (d : Router H) (pre : Str),
    (routesRec d pre).length = handlerCount d
  | mk f rs w, pre => by
    rw [routesRec_mk, handlerCount_mk, List.length_append, routesRange_length rs w pre]
    cases f <;> rfl
theorem routesRange_length : ∀ (rs : List (Str × Router H)) (w pre : Str),
    (routesRange rs w pre).length = handlerCountRange rs
  | [], _, _ => rfl
  | (part, route) :: rest, w, pre => by
    have e1 : routesRange ((part, route) :: rest) w pre =
        routesRec route (pre ++ ['/'] ++ (if part = [] then w else part))
          ++ routesRange rest w pre := rfl
    have e2 : handlerCountRange ((part, route) :: rest) =
        handlerCount route + handlerCountRange rest := rfl
    rw [e1, e2, List.length_append, routesRec_length route _, routesRange_length rest w pre]
end

/-- C9: the list `Routes()` returns has as many entries as the tree has nodes that carry a
handler, and it is empty exactly when no node carries one. -/
theorem C9_routes_count (d : Router H) :
    (Routes d).length = handlerCount d ∧ (Routes d = [] ↔ handlerCount d = 0) := by
  have h := routesRec_length d []
  refine ⟨h, ?_⟩
  unfold Routes
  rw [← h]
  exact List.length_eq_zero.symm

end Router

/-- Witness for C10: the pattern `users/:id/posts` inserted into the router of `TestRouter`. -/
theorem C10_routes_lists_inserted_witness :
    "/users/:id/posts".toList ∈
      Router.Routes (testRouter.InsertFunc "users/:id/posts".toList (some .writeTest)).1 :=
  Router.C10_routes_lists_inserted testRouter
    ["users".toList, ":id".toList, "posts".toList] TestHandler.writeTest
    (by decide) (by decide)

namespace Router

variable {H : Type}

/-! ## Merge -/

theorem mergeRec_mk (d : Router H) (f2 : Option H) (rs2 : List (Str × Router H)) (w2 : Str) :
    mergeRec d (mk f2 rs2 w2) =
      mergeRange
        (match f2 with
         | some f => d.setHandlerFunc (some f)
         | none => d)
        rs2 := rfl

theorem mergeRange_nil (d : Router H) : mergeRange d [] = d := rfl

theorem mergeRange_cons (d : Router H) (elem : Str) (route2 : Router H)
    (rest : List (Str × Router H)) :
    mergeRange d ((elem, route2) :: rest) =
      match mapGet d.routes elem with
      | none => mergeRange (d.setRoute elem route2) rest
      | some route => mergeRange (d.setRoute elem (mergeRec route route2)) rest := rfl

theorem uniqueKeys_mk (f : Option H) (rs : List (Str × Router H)) (w : Str) :
    uniqueKeys (mk f rs w) = uniqueKeysRange rs := rfl

theorem uniqueKeysRange_cons (k : Str) (c : Router H) (rest : List (Str × Router H)) :
    uniqueKeysRange ((k, c) :: rest) =
      ((mapGet rest k).isNone && uniqueKeys c && uniqueKeysRange rest) := rfl

theorem HandlerFunc_mergeRange (d : Router H) (rs : List (Str × Router H)) :
    (mergeRange d rs).HandlerFunc = d.HandlerFunc := by
  induction rs generalizing d with
  | nil => rfl
  | cons a rest ih =>
    obtain ⟨elem, route2⟩ := a
    rw [mergeRange_cons]
    cases mapGet d.routes elem with
    | none => simp only [ih, HandlerFunc_setRoute]
    | some route => simp only [ih, HandlerFunc_setRoute]

theorem mapGet_mergeRange (d : Router H) (rs : List (Str × Router H)) (k : Str)
    (hu : uniqueKeysRange rs = true) :
    mapGet (mergeRange d rs).routes k =
      match mapGet rs k with
      | none => mapGet d.routes k
      | some b =>
        match mapGet d.routes k with
        | none => some b
        | some a => some (mergeRec a b) := by
  induction rs generalizing d with
  | nil => rfl
  | cons x rest ih =>
    obtain ⟨elem, route2⟩ := x
    rw [uniqueKeysRange_cons] at hu
    simp only [Bool.and_eq_true, Option.isNone_iff_eq_none] at hu
    obtain ⟨⟨hnone, _⟩, hrest⟩ := hu
    rw [mergeRange_cons]
    by_cases hk : elem = k
    · subst hk
      simp only [mapGet, if_true]
      cases hd : mapGet d.routes elem with
      | none =>
        simp only [ih _ hrest, hnone, routes_setRoute, mapGet_mapSet_same]
      | some a =>
        simp only [ih _ hrest, hnone, routes_setRoute, mapGet_mapSet_same]
    · simp only [mapGet, hk, if_false]
      cases hd : mapGet d.routes elem with
      | none =>
        simp only [ih _ hrest, routes_setRoute, mapGet_mapSet_other _ _ _ _ hk]
      | some a =>
        simp only [ih _ hrest, routes_setRoute, mapGet_mapSet_other _ _ _ _ hk]

theorem uniqueKeys_of_mapGet (rs : List (Str × Router H)) (k : Str) (b : Router H)
    (hu : uniqueKeysRange rs = true) (hb : mapGet rs k = some b) : uniqueKeys b = true := by
  induction rs with
  | nil => cases hb
  | cons x rest ih =>
    obtain ⟨elem, c⟩ := x
    rw [uniqueKeysRange_cons] at hu
    simp only [Bool.and_eq_true] at hu
    by_cases hk : elem = k
    · simp only [mapGet, hk, if_true, Option.some.injEq] at hb
      rw [← hb]; exact hu.1.2
    · simp only [mapGet, hk, if_false] at hb
      exact ih hu.2 hb

theorem routes_mergeRec (A B : Router H) (k : Str) (hu : uniqueKeys B = true) :
    mapGet (mergeRec A B).routes k =
      match mapGet B.routes k with
      | none => mapGet A.routes k
      | some b =>
        match mapGet A.routes k with
        | none => some b
        | some a => some (mergeRec a b) := by
  obtain ⟨f2, rs2, w2⟩ := B
  rw [uniqueKeys_mk] at hu
  rw [mergeRec_mk, mapGet_mergeRange _ _ _ hu]
  have hr : (mk f2 rs2 w2 : Router H).routes = rs2 := rfl
  rw [hr]
  cases f2 <;> simp only [routes_setHandlerFunc]

theorem HandlerFunc_mergeRec (A B : Router H) :
    (mergeRec A B).HandlerFunc =
      match B.HandlerFunc with
      | some f => some f
      | none => A.HandlerFunc := by
  obtain ⟨f2, rs2, w2⟩ := B
  rw [mergeRec_mk, HandlerFunc_mergeRange]
  have hr : (mk f2 rs2 w2 : Router H).HandlerFunc = f2 := rfl
  rw [hr]
  cases f2 <;> simp only [HandlerFunc_setHandlerFunc]

/-- C7: after `A.Merge(B)`, for `B` with distinct keys at every node (a Go map), a node
exists at a key path exactly when one existed there in `A` or in `B`, and its handler is the
handler `B` has there if any, else the handler `A` had there. -/
theorem C7_merge_right_biased_union (A B : Router H) (p : List Str)
    (hB : uniqueKeys B = true) :
    ((Merge A B).nodeAt p).isSome = ((A.nodeAt p).isSome || (B.nodeAt p).isSome) ∧
    (Merge A B).handlerAt p =
      (match B.handlerAt p with
       | some f => some f
       | none => A.handlerAt p) := by
  unfold Merge
  induction p generalizing A B with
  | nil =>
    simp only [nodeAt, handlerAt, Option.isSome_some, Bool.or_self, Option.bind, true_and]
    exact HandlerFunc_mergeRec A B
  | cons k ks ih =>
    simp only [nodeAt, handlerAt]
    rw [routes_mergeRec A B k hB]
    cases hb : mapGet B.routes k with
    | none =>
      cases ha : mapGet A.routes k with
      | none => simp
      | some a => simp
    | some b =>
      have hub : uniqueKeys b = true := by
        obtain ⟨f2, rs2, w2⟩ := B
        exact uniqueKeys_of_mapGet rs2 k b hB hb
      cases ha : mapGet A.routes k with
      | none =>
        simp only [Option.isSome_none, Bool.false_or, true_and, Option.bind]
        cases hn : b.nodeAt ks with
        | none => rfl
        | some n => cases hf : n.HandlerFunc <;> simp [hf]
      | some a =>
        have := ih a b hub
        simp only [handlerAt] at this
        exact this

end Router

/-! ## Instances of a pattern -/

theorem splitSlash_ne_nil (s : Str) : splitSlash s ≠ [] := by
  rw [splitSlash_eq_cut]; simp

theorem splitSlash_slash_cons (t : Str) : splitSlash ('/' :: t) = [] :: splitSlash t := by
  simp [splitSlash]

theorem TrimPrefix_slash_cons (t : Str) : TrimPrefix ('/' :: t) ['/'] = t := by
  simp [TrimPrefix, HasPrefix, List.isPrefixOf]

theorem splitSlash_head_nil (s : Str) (rest : List Str) (h : splitSlash s = [] :: rest) :
    (s = [] ∧ rest = []) ∨ ∃ t, s = '/' :: t ∧ rest = splitSlash t := by
  cases s with
  | nil =>
    left
    simp only [splitSlash, List.cons.injEq, true_and] at h
    exact ⟨rfl, h.symm⟩
  | cons c cs =>
    by_cases hc : c = '/'
    · subst hc
      right
      rw [splitSlash_slash_cons] at h
      exact ⟨cs, rfl, by injection h with _ h2; exact h2.symm⟩
    · exfalso
      rw [splitSlash_eq_cut] at h
      simp [cut, hc] at h

theorem fits_cons_inv (s : Str) (ss : List Str) (qs : List Str)
    (h : fits (s :: ss) qs = true) :
    ∃ t ts, qs = t :: ts ∧
      (if HasPrefix s [':'] = true then t ≠ [] else t = s) ∧ fits ss ts = true := by
  cases qs with
  | nil => simp [fits] at h
  | cons t ts =>
    refine ⟨t, ts, rfl, ?_⟩
    simp only [fits, Bool.and_eq_true] at h
    refine ⟨?_, h.2⟩
    by_cases hw : HasPrefix s [':'] = true
    · simp only [hw, if_true] at h ⊢
      simpa using h.1
    · simp only [hw, if_false] at h ⊢
      simpa using h.1

theorem fits_nil_inv (qs : List Str) (h : fits [] qs = true) : qs = [] := by
  cases qs with
  | nil => rfl
  | cons t ts => simp [fits] at h

theorem HasPrefix_colon_ne_nil (s : Str) (h : HasPrefix s [':'] = true) : s ≠ [] := by
  intro e; subst e; simp [HasPrefix, List.isPrefixOf] at h

theorem fits_takeWhile (ps qs : List Str) (h : fits ps qs = true) :
    fits (ps.takeWhile (fun seg => seg ≠ [])) (qs.takeWhile (fun seg => seg ≠ [])) = true := by
  induction ps generalizing qs with
  | nil => rw [fits_nil_inv qs h]; rfl
  | cons s ss ih =>
    obtain ⟨t, ts, rfl, hst, hrest⟩ := fits_cons_inv s ss qs h
    by_cases hw : HasPrefix s [':'] = true
    · simp only [hw, if_true] at hst
      have hs := HasPrefix_colon_ne_nil s hw
      simp only [List.takeWhile, hs, hst, ne_eq, not_false_eq_true, decide_True, fits, hw,
        if_true, Bool.true_and]
      exact ih ts hrest
    · simp only [hw, if_false] at hst
      subst hst
      by_cases hs : t = []
      · simp [List.takeWhile, hs, fits]
      · simp only [List.takeWhile, hs, ne_eq, not_false_eq_true, decide_True, fits, hw,
          Bool.false_eq_true, if_false, Bool.true_and]
        exact ih ts hrest

theorem fits_pathSegments (P Q : Str) (h : IsInstance P Q) :
    fits (pathSegments P) (pathSegments Q) = true := by
  unfold IsInstance at h
  unfold pathSegments scanned
  apply fits_takeWhile
  cases P with
  | nil =>
    have hq : splitSlash Q = [[]] := by
      obtain ⟨t, ts, hq, hst, hrest⟩ := fits_cons_inv [] [] (splitSlash Q) h
      have ht : t = [] := by simpa [HasPrefix, List.isPrefixOf] using hst
      rw [hq, ht, fits_nil_inv ts hrest]
    rcases splitSlash_head_nil Q [] hq with ⟨hQ, _⟩ | ⟨t, _, ht⟩
    · subst hQ; exact h
    · exact absurd ht.symm (splitSlash_ne_nil t)
  | cons c cs =>
    by_cases hc : c = '/'
    · subst hc
      rw [TrimPrefix_slash_cons]
      rw [splitSlash_slash_cons] at h
      obtain ⟨t, ts, hq, hst, hrest⟩ := fits_cons_inv [] _ (splitSlash Q) h
      have ht : t = [] := by simpa [HasPrefix, List.isPrefixOf] using hst
      subst ht
      rcases splitSlash_head_nil Q ts hq with ⟨_, hts⟩ | ⟨q, hQ, hts⟩
      · subst hts
        cases hsp : splitSlash cs with
        | nil => exact absurd hsp (splitSlash_ne_nil cs)
        | cons a b => rw [hsp] at hrest; simp [fits] at hrest
      · subst hQ
        rw [TrimPrefix_slash_cons, ← hts]
        exact hrest
    · rw [TrimPrefix_slash_of_head (c :: cs) (by intro t e; injection e with e1 _; exact hc e1)]
      have hhead : ∃ a rest, splitSlash (c :: cs) = a :: rest ∧ a ≠ [] := by
        rw [splitSlash_eq_cut]
        exact ⟨_, _, rfl, by simp [cut, hc]⟩
      obtain ⟨a, rest, hsp, ha⟩ := hhead
      rw [hsp] at h
      obtain ⟨t, ts, hq, hst, hrest⟩ := fits_cons_inv a rest (splitSlash Q) h
      have ht : t ≠ [] := by
        by_cases hw : HasPrefix a [':'] = true
        · simpa [hw] using hst
        · simp only [hw, if_false] at hst
          rw [hst]; exact ha
      have hQ : ∀ q, Q ≠ '/' :: q := by
        intro q e
        rw [e, splitSlash_slash_cons] at hq
        injection hq with h1 _
        exact ht h1.symm
      rw [TrimPrefix_slash_of_head Q hQ, hsp]
      exact h

namespace Router

variable {H : Type}

theorem walk_insertSegsFunc (d : Router H) (ps qs : List Str) (f : H)
    (hfit : fits ps qs = true)
    (hsh : unshadowed (d.insertSegsFunc ps (some f)) ps qs = true) :
    ∃ n, walk (d.insertSegsFunc ps (some f)) qs = some n ∧ n.HandlerFunc = some f := by
  induction ps generalizing d qs with
  | nil =>
    rw [fits_nil_inv qs hfit]
    exact ⟨_, rfl, by simp [insertSegsFunc_nil]⟩
  | cons s ss ih =>
    obtain ⟨t, ts, rfl, hst, hrest⟩ := fits_cons_inv s ss qs hfit
    rw [insertSegsFunc_cons] at hsh ⊢
    simp only [unshadowed, routes_setRoute, mapGet_mapSet_same, Bool.and_eq_true] at hsh
    obtain ⟨hlit, hsub⟩ := hsh
    obtain ⟨n, hn, hf⟩ := ih (d.nextRoute s) ts hrest hsub
    refine ⟨n, ?_, hf⟩
    have hchild : ((d.named s).setRoute (keyOf s)
        ((d.nextRoute s).insertSegsFunc ss (some f))).child t
        = some ((d.nextRoute s).insertSegsFunc ss (some f)) := by
      by_cases hw : HasPrefix s [':'] = true
      · simp only [hw, if_true, Option.isNone_iff_eq_none] at hlit
        have hk : keyOf s = [] := by simp [keyOf, hw]
        rw [hk] at hlit ⊢
        simp only [child, routes_setRoute, hlit, mapGet_mapSet_same]
      · simp only [hw, if_false] at hst
        have hk : keyOf s = s := by simp [keyOf, hw]
        rw [hk, hst]
        simp only [child, routes_setRoute, mapGet_mapSet_same]
    simp only [walk, hchild]
    exact hn

/-- C1 (amended): after `InsertFunc(P, H)`, a path made of the separator and `P` with each
wildcard segment replaced by a non-empty token without separator calls `H`, provided no such
token is the key of a literal child of the node where its wildcard segment is matched. -/
theorem C1_inserted_pattern_is_served (d : Router H) (P Q raw : Str) (f : H)
    (hinst : IsInstance P Q)
    (hsh : unshadowed (d.InsertFunc P (some f)).1 (pathSegments P) (pathSegments Q) = true) :
    ∃ r1, ServeHTTP (d.InsertFunc P (some f)).1 ⟨'/' :: Q, raw⟩ = .served f r1 := by
  rw [InsertFunc_eq] at hsh ⊢
  obtain ⟨n, hn, hf⟩ :=
    walk_insertSegsFunc d (pathSegments P) (pathSegments Q) f (fits_pathSegments P Q hinst) hsh
  have hspec := ServeHTTP_spec (d.insertSegsFunc (pathSegments P) (some f)) ⟨'/' :: Q, raw⟩
    (by simp [HasPrefix, List.isPrefixOf])
  simp only [List.drop_one, List.tail_cons] at hspec
  have hn1 : (d.insertSegsFunc (pathSegments P) (some f)).walk (scanned (TrimPrefix Q ['/']))
      = some n := hn
  rw [hn1] at hspec
  simp only [Option.bind, hf] at hspec
  exact hspec

end Router

namespace Router

variable {H : Type}

/-! ## Chains -/

theorem chain_iff_walk (d n : Router H) (segs : List Str) :
    Chain d segs n ↔ walk d segs = some n := by
  constructor
  · intro h
    induction h with
    | done d => rfl
    | literal d c n s segs hl _ ih => simp only [walk, child, hl]; exact ih
    | wildcard d c n s segs hl hw _ ih => simp only [walk, child, hl, hw]; exact ih
  · intro h
    induction segs generalizing d with
    | nil =>
      simp only [walk, Option.some.injEq] at h
      subst h; exact Chain.done d
    | cons s segs ih =>
      simp only [walk, child] at h
      cases hl : mapGet d.routes s with
      | some c =>
        simp only [hl] at h
        exact Chain.literal d c n s segs hl (ih c h)
      | none =>
        simp only [hl] at h
        cases hw : mapGet d.routes [] with
        | some c =>
          simp only [hw] at h
          exact Chain.wildcard d c n s segs hl hw (ih c h)
        | none => simp [hw] at h

theorem routed_iff_walk (d : Router H) (segs : List Str) :
    Routed d segs ↔ ((walk d segs).bind HandlerFunc).isSome = true := by
  unfold Routed
  constructor
  · rintro ⟨n, f, hc, hf⟩
    rw [(chain_iff_walk d n segs).mp hc]
    simp [Option.bind, hf]
  · intro h
    cases hw : walk d segs with
    | none => simp [hw] at h
    | some n =>
      cases hf : n.HandlerFunc with
      | none => simp [hw, Option.bind, hf] at h
      | some f => exact ⟨n, f, (chain_iff_walk d n segs).mpr hw, hf⟩

/-- On a path made of the separator and non-empty segments joined by single separators,
dispatch is not-found when no chain of child nodes matches the segments and ends at a node
that carries a handler. -/
theorem unrouted_not_found (d : Router H) (segs : List Str) (raw : Str)
    (hsegs : ∀ s ∈ segs, s ≠ [] ∧ '/' ∉ s) (hno : ¬ Routed d segs) :
    ServeHTTP d ⟨'/' :: joinSlash segs, raw⟩ = .notFound := by
  have hspec := ServeHTTP_spec d ⟨'/' :: joinSlash segs, raw⟩
    (by simp [HasPrefix, List.isPrefixOf])
  simp only [List.drop_one, List.tail_cons] at hspec
  have hseg : scanned (TrimPrefix (joinSlash segs) ['/']) = segs :=
    pathSegments_joinSlash segs hsegs
  rw [hseg] at hspec
  rw [routed_iff_walk] at hno
  cases hb : (walk d segs).bind HandlerFunc with
  | none => rw [hb] at hspec; exact hspec
  | some f => rw [hb] at hno; simp at hno

/-! ## Distinct keys are kept by insertion -/

theorem uniqueKeys_eq (d : Router H) : uniqueKeys d = uniqueKeysRange d.routes := by
  cases d; rfl

theorem uniqueKeysRange_mapSet (rs : List (Str × Router H)) (k : Str) (c : Router H)
    (hrs : uniqueKeysRange rs = true) (hc : uniqueKeys c = true) :
    uniqueKeysRange (mapSet rs k c) = true := by
  induction rs with
  | nil =>
    simp only [mapSet, uniqueKeysRange_cons, hc, Bool.and_eq_true]
    exact ⟨⟨rfl, trivial⟩, rfl⟩
  | cons x rest ih =>
    obtain ⟨k', c'⟩ := x
    rw [uniqueKeysRange_cons] at hrs
    simp only [Bool.and_eq_true, Option.isNone_iff_eq_none] at hrs
    obtain ⟨⟨hnone, hc'⟩, hrest⟩ := hrs
    by_cases hk : k' = k
    · subst hk
      simp only [mapSet, if_true, uniqueKeysRange_cons, Bool.and_eq_true,
        Option.isNone_iff_eq_none]
      exact ⟨⟨hnone, hc⟩, hrest⟩
    · simp only [mapSet, hk, if_false, uniqueKeysRange_cons, Bool.and_eq_true,
        Option.isNone_iff_eq_none]
      refine ⟨⟨?_, hc'⟩, ih hrest⟩
      rw [mapGet_mapSet_other _ _ _ _ (fun e => hk e.symm)]
      exact hnone

theorem uniqueKeys_empty : uniqueKeys (empty : Router H) = true := rfl

theorem uniqueKeys_nextRoute (d : Router H) (s : Str) (hd : uniqueKeys d = true) :
    uniqueKeys (d.nextRoute s) = true := by
  unfold nextRoute
  cases hg : mapGet d.routes (keyOf s) with
  | none => exact uniqueKeys_empty
  | some c =>
    rw [uniqueKeys_eq] at hd
    exact uniqueKeys_of_mapGet _ _ _ hd hg

theorem uniqueKeys_insertSegsFunc (d : Router H) (segs : List Str) (f : Option H)
    (hd : uniqueKeys d = true) : uniqueKeys (d.insertSegsFunc segs f) = true := by
  induction segs generalizing d with
  | nil =>
    rw [insertSegsFunc_nil, uniqueKeys_eq, routes_setHandlerFunc, ← uniqueKeys_eq]
    exact hd
  | cons s ss ih =>
    rw [insertSegsFunc_cons, uniqueKeys_eq, routes_setRoute, routes_named]
    apply uniqueKeysRange_mapSet
    · rw [← uniqueKeys_eq]; exact hd
    · exact ih _ (uniqueKeys_nextRoute d s hd)

theorem uniqueKeys_InsertFunc (d : Router H) (P : Str) (f : Option H)
    (hd : uniqueKeys d = true) : uniqueKeys (d.InsertFunc P f).1 = true := by
  rw [InsertFunc_eq]
  exact uniqueKeys_insertSegsFunc d _ f hd

theorem uniqueKeys_insertSegs (d : Router H) (segs : List Str)
    (hd : uniqueKeys d = true) : uniqueKeys (d.insertSegs segs).1 = true := by
  induction segs generalizing d with
  | nil => exact hd
  | cons s ss ih =>
    rw [insertSegs_cons, uniqueKeys_eq, routes_setRoute, routes_named]
    apply uniqueKeysRange_mapSet
    · rw [← uniqueKeys_eq]; exact hd
    · exact ih _ (uniqueKeys_nextRoute d s hd)

theorem uniqueKeys_Insert (d : Router H) (P : Str)
    (hd : uniqueKeys d = true) : uniqueKeys (d.Insert P).1 = true := by
  simp only [Insert, pathScanner.Reset]
  rw [insertRec_eq_insertSegs _ _ _ (Nat.lt_succ_self _)]
  exact uniqueKeys_insertSegs d _ hd

end Router

/-- C1 (counterexample): on a router that holds `tok`, after `InsertFunc(":id", 2)` the path
`/tok` is the pattern with its wildcard segment replaced by `tok`, and it calls the handler of
`tok`, not the inserted one. -/
theorem C1_literal_child_shadows_wildcard :
    IsInstance ":id".toList "tok".toList ∧
    Router.ServeHTTP
      ((((Router.empty : Router Nat).InsertFunc "tok".toList (some 1)).1.InsertFunc
        ":id".toList (some 2)).1) ⟨"/tok".toList, []⟩ = .served 1 ⟨"tok".toList, []⟩ ∧
    (Router.ServeHTTP
      ((((Router.empty : Router Nat).InsertFunc "tok".toList (some 1)).1.InsertFunc
        ":id".toList (some 2)).1) ⟨"/tok".toList, []⟩).handler ≠ some 2 := by
  decide

/-- Witness for C1: `users/:id` inserted into the router of `TestRouter`, path `/users/42`. -/
theorem C1_inserted_pattern_is_served_witness :
    ∃ r1, Router.ServeHTTP (testRouter.InsertFunc "users/:id".toList (some .writeId)).1
      ⟨'/' :: "users/42".toList, []⟩ = .served TestHandler.writeId r1 :=
  Router.C1_inserted_pattern_is_served testRouter "users/:id".toList "users/42".toList []
    TestHandler.writeId (by decide) (by decide)

/-- C5 (failing input): the router holds the pattern `a` alone; no chain matches the
segments `a`, empty, `b` of the path `/a//b`, nor its non-empty segments `a`, `b`, and
dispatch calls the handler of `a`, with the request path `/b`. -/
theorem C5_empty_segment_ends_dispatch :
    splitSlash "a//b".toList = ["a".toList, [], "b".toList] ∧
    ¬ Router.Routed ((Router.empty : Router Nat).InsertFunc "a".toList (some 1)).1
        ["a".toList, [], "b".toList] ∧
    ¬ Router.Routed ((Router.empty : Router Nat).InsertFunc "a".toList (some 1)).1
        ["a".toList, "b".toList] ∧
    Router.ServeHTTP ((Router.empty : Router Nat).InsertFunc "a".toList (some 1)).1
      ⟨"/a//b".toList, []⟩ = .served 1 ⟨"/b".toList, []⟩ := by
  refine ⟨by decide, ?_, ?_, by decide⟩
  · rw [Router.routed_iff_walk]; decide
  · rw [Router.routed_iff_walk]; decide

/-- Witness for C7: `routerB` merged into `routerA`, at the key path `a`. -/
theorem C7_merge_right_biased_union_witness :
    ((Router.Merge routerA routerB).nodeAt ["a".toList]).isSome =
        ((routerA.nodeAt ["a".toList]).isSome || (routerB.nodeAt ["a".toList]).isSome) ∧
    (Router.Merge routerA routerB).handlerAt ["a".toList] =
      (match routerB.handlerAt ["a".toList] with
       | some f => some f
       | none => routerA.handlerAt ["a".toList]) :=
  Router.C7_merge_right_biased_union routerA routerB ["a".toList] (by decide)

/-- C8 (failing input): `routerB` lists `/:id`; after it is merged into a router that holds
`x`, the wildcard child is listed under the empty name, as `/`, and `/:id` is not listed. -/
theorem C8_merge_drops_wildcard_name :
    Router.Routes routerB = ["/a".toList, "/:id".toList] ∧
    Router.Routes
      (Router.Merge ((Router.empty : Router Nat).InsertFunc "x".toList (some 0)).1 routerB)
      = ["/x".toList, "/a".toList, "/".toList] ∧
    "/:id".toList ∉ Router.Routes
      (Router.Merge ((Router.empty : Router Nat).InsertFunc "x".toList (some 0)).1 routerB) := by
  decide

/-! ## The contract of `Next` -/

theorem mem_slash_split (s : Str) (h : '/' ∈ s) :
    s = (cut s).1 ++ '/' :: (cut s).2 := by
  induction s with
  | nil => cases h
  | cons c cs ih =>
    by_cases hc : c = '/'
    · subst hc; simp [cut]
    · have hcs : '/' ∈ cs := by
        rcases List.mem_cons.mp h with e | e
        · exact absurd e.symm hc
        · exact e
      simp only [cut, hc, if_false, List.cons_append]
      rw [← ih hcs]

/-- C14: `Next` on the remaining text `s` returns the empty string and changes nothing when
`s` is empty, returns `s` and leaves nothing when `s` is non-empty without separator, and
otherwise returns the part before the first separator and leaves the part after it, `Len`
dropping by the length of the part plus one; the element returned never holds a separator. -/
theorem C14_next_contract (sc : pathScanner) :
    (sc.path = [] → sc.Next = ([], sc)) ∧
    (sc.path ≠ [] → '/' ∉ sc.path → sc.Next = (sc.path, ⟨[]⟩)) ∧
    ('/' ∈ sc.path → ∃ seg rest, '/' ∉ seg ∧ sc.path = seg ++ '/' :: rest) ∧
    (∀ seg rest, '/' ∉ seg → sc.path = seg ++ '/' :: rest →
      sc.Next = (seg, ⟨rest⟩) ∧ sc.Next.2.Len + (seg.length + 1) = sc.Len) ∧
    '/' ∉ sc.Next.1 := by
  refine ⟨?_, ?_, ?_, ?_, ?_⟩
  · intro h
    obtain ⟨s⟩ := sc
    simp only at h
    subst h
    rfl
  · intro _ h
    rw [Next_eq_cut, cut_of_no_slash _ h]
  · intro h
    exact ⟨(cut sc.path).1, (cut sc.path).2, cut_fst_no_slash _, mem_slash_split _ h⟩
  · intro seg rest hseg hs
    rw [Next_eq_cut, hs, cut_append_slash seg rest hseg]
    refine ⟨rfl, ?_⟩
    simp only [pathScanner.Len, hs, List.length_append, List.length_cons]
    omega
  · rw [Next_eq_cut]
    exact cut_fst_no_slash _

/-- Witness for C14: the scanner on `users/42/posts`. -/
theorem C14_next_contract_witness :
    pathScanner.Next ⟨"users/42/posts".toList⟩ = ("users".toList, ⟨"42/posts".toList⟩) ∧
    (pathScanner.Next ⟨"users/42/posts".toList⟩).2.Len + ("users".toList.length + 1)
      = pathScanner.Len ⟨"users/42/posts".toList⟩ :=
  (C14_next_contract ⟨"users/42/posts".toList⟩).2.2.2.1 "users".toList "42/posts".toList
    (by decide) rfl

namespace Router

variable {H : Type}

/-! ## What insertion reaches and what it leaves alone -/

theorem nodeAt_empty_cons (k : Str) (ks : List Str) :
    (empty : Router H).nodeAt (k :: ks) = none := rfl

theorem handlerAt_empty (q : List Str) : (empty : Router H).handlerAt q = none := by
  cases q <;> rfl

theorem handlerAt_nextRoute (d : Router H) (s : Str) (ks : List Str) :
    (d.nextRoute s).handlerAt ks = d.handlerAt (keyOf s :: ks) := by
  unfold nextRoute
  cases hg : mapGet d.routes (keyOf s) with
  | none =>
    rw [handlerAt_empty]
    simp only [handlerAt, nodeAt, hg, Option.bind]
  | some c => simp only [handlerAt, nodeAt, hg]

theorem handlerAt_insertSegsFunc (d : Router H) (segs : List Str) (f : Option H)
    (q : List Str) :
    (d.insertSegsFunc segs f).handlerAt q =
      if q = segs.map keyOf then f else d.handlerAt q := by
  induction segs generalizing d q with
  | nil =>
    rw [insertSegsFunc_nil]
    cases q with
    | nil => simp [handlerAt, nodeAt, Option.bind]
    | cons k ks => simp [handlerAt, nodeAt]
  | cons s ss ih =>
    rw [insertSegsFunc_cons]
    cases q with
    | nil => simp [handlerAt, nodeAt, Option.bind, HandlerFunc_named]
    | cons k ks =>
      by_cases hk : k = keyOf s
      · subst hk
        have h1 : ((d.named s).setRoute (keyOf s)
            ((d.nextRoute s).insertSegsFunc ss f)).handlerAt (keyOf s :: ks)
            = ((d.nextRoute s).insertSegsFunc ss f).handlerAt ks := by
          simp only [handlerAt, nodeAt, routes_setRoute, mapGet_mapSet_same]
        rw [h1, ih, handlerAt_nextRoute]
        simp only [List.map_cons, List.cons.injEq, true_and]
      · have h1 : ((d.named s).setRoute (keyOf s)
            ((d.nextRoute s).insertSegsFunc ss f)).handlerAt (k :: ks)
            = d.handlerAt (k :: ks) := by
          simp only [handlerAt, nodeAt, routes_setRoute, routes_named,
            mapGet_mapSet_other _ _ _ _ (fun e => hk e.symm)]
        rw [h1]
        simp only [List.map_cons, List.cons.injEq, hk, false_and, if_false]

theorem nodeAt_isSome_insertSegsFunc (d : Router H) (segs : List Str) (f : Option H)
    (q : List Str) (h : (d.nodeAt q).isSome = true) :
    ((d.insertSegsFunc segs f).nodeAt q).isSome = true := by
  induction segs generalizing d q with
  | nil =>
    rw [insertSegsFunc_nil]
    cases q with
    | nil => rfl
    | cons k ks => simpa [nodeAt] using h
  | cons s ss ih =>
    rw [insertSegsFunc_cons]
    cases q with
    | nil => rfl
    | cons k ks =>
      by_cases hk : k = keyOf s
      · subst hk
        simp only [nodeAt, routes_setRoute, mapGet_mapSet_same]
        apply ih
        unfold nextRoute
        simp only [nodeAt] at h
        cases hg : mapGet d.routes (keyOf s) with
        | none => rw [hg] at h; simp at h
        | some c => rw [hg] at h; exact h
      · simp only [nodeAt, routes_setRoute, routes_named,
          mapGet_mapSet_other _ _ _ _ (fun e => hk e.symm)]
        simpa [nodeAt] using h

theorem nodeAt_insertSegs (d : Router H) (segs : List Str) :
    ((d.insertSegs segs).1.nodeAt (segs.map keyOf)).isSome = true := by
  induction segs generalizing d with
  | nil => rfl
  | cons s ss ih =>
    rw [insertSegs_cons]
    simp only [List.map_cons, nodeAt, routes_setRoute, mapGet_mapSet_same]
    exact ih _

theorem Insert_eq (d : Router H) (P : Str) :
    d.Insert P = ((d.insertSegs (pathSegments P)).1, (pathSegments P).map keyOf) := by
  simp only [Insert, pathScanner.Reset]
  rw [insertRec_eq_insertSegs _ _ _ (Nat.lt_succ_self _)]
  simp only [pathSegments, ← insertSegs_snd d]

theorem pathSegments_nil : pathSegments [] = [] := by
  simp [pathSegments, TrimPrefix, HasPrefix, List.isPrefixOf, scanned_nil]

theorem pathSegments_slash : pathSegments ['/'] = [] := by
  simp [pathSegments, TrimPrefix_slash_cons, scanned_nil]

/-- The node `insertRec` returns: its key path is made of the segments of `P` up to the first
empty segment (one leading separator dropped, a wildcard segment mapped to the sentinel
key); the node exists afterwards, `InsertFunc` attaches `H` to it and changes no other
handler; for the empty pattern and for the pattern of one separator the node is the receiver
and nothing else changes. -/
theorem insert_reaches_node (d : Router H) (P : Str) (f : Option H) :
    (d.InsertFunc P f).2 = (pathSegments P).map keyOf ∧
    (d.Insert P).2 = (pathSegments P).map keyOf ∧
    ((d.Insert P).1.nodeAt ((pathSegments P).map keyOf)).isSome = true ∧
    (d.InsertFunc P f).1 =
      (d.Insert P).1.modifyAt ((pathSegments P).map keyOf) (fun n => n.setHandlerFunc f) ∧
    (d.InsertFunc P f).1.handlerAt ((pathSegments P).map keyOf) = f ∧
    (∀ q, q ≠ (pathSegments P).map keyOf → (d.InsertFunc P f).1.handlerAt q = d.handlerAt q) ∧
    (∀ q, (d.nodeAt q).isSome = true → ((d.InsertFunc P f).1.nodeAt q).isSome = true) ∧
    d.InsertFunc [] f = (d.setHandlerFunc f, []) ∧
    d.InsertFunc ['/'] f = (d.setHandlerFunc f, []) ∧
    d.Insert [] = (d, []) ∧ d.Insert ['/'] = (d, []) := by
  refine ⟨?_, ?_, ?_, ?_, ?_, ?_, ?_, ?_, ?_, ?_, ?_⟩
  · rw [InsertFunc_eq]
  · rw [Insert_eq]
  · rw [Insert_eq]; exact nodeAt_insertSegs d _
  · rw [InsertFunc_eq, Insert_eq]
    simp only [insertSegsFunc, insertSegs_snd]
  · rw [InsertFunc_eq]
    simp only [handlerAt_insertSegsFunc, if_true]
  · intro q hq
    rw [InsertFunc_eq]
    simp only [handlerAt_insertSegsFunc, hq, if_false]
  · intro q hq
    rw [InsertFunc_eq]
    exact nodeAt_isSome_insertSegsFunc d _ f q hq
  · rw [InsertFunc_eq, pathSegments_nil]; rfl
  · rw [InsertFunc_eq, pathSegments_slash]; rfl
  · rw [Insert_eq, pathSegments_nil]; rfl
  · rw [Insert_eq, pathSegments_slash]; rfl

/-- What `insertRec` does at a node that has a wildcard child `c` when the next segment is a
wildcard named `w2`: the wildcard name becomes `w2` and the wildcard child is still `c`, with
the rest of the pattern inserted into it; every node of `c` is kept, and every handler of
`c` except the one at the node the rest of the pattern reaches. -/
theorem wildcard_child_reused (d c : Router H) (P w2 : Str) (rest : List Str)
    (f : Option H) (hc : mapGet d.routes [] = some c)
    (hseg : pathSegments P = w2 :: rest) (hw : HasPrefix w2 [':'] = true) :
    (d.InsertFunc P f).1.wildcard = w2 ∧
    mapGet (d.InsertFunc P f).1.routes [] = some (c.insertSegsFunc rest f) ∧
    (∀ q, (c.nodeAt q).isSome = true → ((c.insertSegsFunc rest f).nodeAt q).isSome = true) ∧
    (∀ q, q ≠ rest.map keyOf → (c.insertSegsFunc rest f).handlerAt q = c.handlerAt q) := by
  have hk : keyOf w2 = [] := by simp [keyOf, hw]
  have hn : d.nextRoute w2 = c := by simp [nextRoute, hk, hc]
  rw [InsertFunc_eq, hseg]
  simp only [insertSegsFunc_cons, hk, hn, wildcard_setRoute, routes_setRoute,
    mapGet_mapSet_same, true_and]
  refine ⟨?_, ?_, ?_⟩
  · simp [named, hw]
  · intro q hq
    exact nodeAt_isSome_insertSegsFunc c rest f q hq
  · intro q hq
    simp only [handlerAt_insertSegsFunc, hq, if_false]

end Router

/-- C12 (failing input): the scanner yields `a`, the empty string and `b` for the pattern
`a//b` until nothing remains, and `InsertFunc` returns the node at the key path `a`, attaches
the handler there and makes no node at the key path of the three elements. -/
theorem C12_insert_stops_at_empty_segment :
    scanAll 5 (pathScanner.Reset ⟨[]⟩ "a//b".toList) = ["a".toList, [], "b".toList] ∧
    ((Router.empty : Router Nat).InsertFunc "a//b".toList (some 1)).2 = ["a".toList] ∧
    ((Router.empty : Router Nat).InsertFunc "a//b".toList (some 1)).1.handlerAt ["a".toList]
      = some 1 ∧
    (((Router.empty : Router Nat).InsertFunc "a//b".toList (some 1)).1.nodeAt
      ["a".toList, [], "b".toList]).isNone = true := by
  decide

/-- C11 (failing input): after `:a/x` is inserted with handler 1 and then `:b/y` with
handler 2, the wildcard name is `:b`, but the wildcard child is the node of the first
pattern: the handler 1 is still in the tree, served at `/7/x` and listed as `/:b/x`. -/
theorem C11_wildcard_child_is_kept :
    ((((Router.empty : Router Nat).InsertFunc ":a/x".toList (some 1)).1.InsertFunc
      ":b/y".toList (some 2)).1).wildcard = ":b".toList ∧
    ((((Router.empty : Router Nat).InsertFunc ":a/x".toList (some 1)).1.InsertFunc
      ":b/y".toList (some 2)).1).handlerAt [[], "x".toList] = some 1 ∧
    Router.Routes ((((Router.empty : Router Nat).InsertFunc ":a/x".toList (some 1)).1.InsertFunc
      ":b/y".toList (some 2)).1) = ["/:b/x".toList, "/:b/y".toList] ∧
    Router.ServeHTTP ((((Router.empty : Router Nat).InsertFunc ":a/x".toList (some 1)).1.InsertFunc
      ":b/y".toList (some 2)).1) ⟨"/7/x".toList, []⟩ = .served 1 ⟨"x".toList, []⟩ := by
  decide

/-! ## Inserting below a returned node -/

theorem joinSlash_append (ps qs : List Str) (hps : ps ≠ []) (hqs : qs ≠ []) :
    joinSlash (ps ++ qs) = joinSlash ps ++ '/' :: joinSlash qs := by
  induction ps with
  | nil => exact absurd rfl hps
  | cons s ss ih =>
    cases ss with
    | nil =>
      cases qs with
      | nil => exact absurd rfl hqs
      | cons t ts => simp [joinSlash]
    | cons u us =>
      have h1 := ih (by simp)
      have h2 : joinSlash (s :: u :: us ++ qs) = s ++ '/' :: joinSlash (u :: us ++ qs) := rfl
      have h3 : joinSlash (s :: u :: us) = s ++ '/' :: joinSlash (u :: us) := rfl
      rw [h2, h1, h3]
      simp

namespace Router

variable {H : Type}

theorem insertSegsFunc_append (d : Router H) (ps qs : List Str) (f1 f2 : Option H) :
    (d.insertSegsFunc ps f1).insertSegsFunc (ps ++ qs) f2 =
      (d.insertSegsFunc ps f1).modifyAt (ps.map keyOf) (fun m => m.insertSegsFunc qs f2) := by
  induction ps generalizing d with
  | nil => rfl
  | cons s ss ih =>
    rw [insertSegsFunc_cons d s ss f1]
    simp only [List.cons_append, List.map_cons, modifyAt, routes_setRoute, mapGet_mapSet_same]
    rw [insertSegsFunc_cons, named_setRoute_named, nextRoute_setRoute, ih]

/-- C13: for patterns `p` and `q` of one or more non-empty segments joined by single
separators, `InsertFunc(q, h2)` on the node that `r.InsertFunc(p, h1)` returns gives the
router and the node that `InsertFunc` of `p`, a separator and `q` on `r` gives. -/
theorem C13_insert_below_returned_node (r : Router H) (ps qs : List Str) (f1 f2 : Option H)
    (hps : ps ≠ []) (hqs : qs ≠ [])
    (hp : ∀ s ∈ ps, s ≠ [] ∧ '/' ∉ s) (hq : ∀ s ∈ qs, s ≠ [] ∧ '/' ∉ s) :
    (r.InsertFunc (joinSlash ps) f1).1.InsertFuncAt (r.InsertFunc (joinSlash ps) f1).2
        (joinSlash qs) f2 =
      (r.InsertFunc (joinSlash ps) f1).1.InsertFunc (joinSlash ps ++ '/' :: joinSlash qs) f2 := by
  have hpq : ∀ s ∈ ps ++ qs, s ≠ [] ∧ '/' ∉ s := by
    intro s hs
    rcases List.mem_append.mp hs with h | h
    · exact hp s h
    · exact hq s h
  rw [← joinSlash_append ps qs hps hqs]
  simp only [InsertFunc_eq, pathSegments_joinSlash ps hp, pathSegments_joinSlash (ps ++ qs) hpq]
  obtain ⟨n, hn, _⟩ := nodeAt_insertSegsFunc r ps f1
  simp only [InsertFuncAt, hn, InsertFunc_eq, pathSegments_joinSlash qs hq,
    insertSegsFunc_append, List.map_append]

end Router

/-- Witness for C13: `:id` inserted on the node that the insertion of `test` returns. -/
theorem C13_insert_below_returned_node_witness :
    ((Router.empty : Router Nat).InsertFunc "test".toList (some 1)).1.InsertFuncAt
        ((Router.empty : Router Nat).InsertFunc "test".toList (some 1)).2 ":id".toList (some 2) =
      ((Router.empty : Router Nat).InsertFunc "test".toList (some 1)).1.InsertFunc
        ("test".toList ++ '/' :: ":id".toList) (some 2) :=
  Router.C13_insert_below_returned_node (Router.empty : Router Nat)
    ["test".toList] [":id".toList] (some 1) (some 2) (by decide) (by decide)
    (by decide) (by decide)

namespace Router

variable {H : Type}

/-! ## Dispatch without the short-circuit -/

theorem serveRecPlain_spec (fuel : Nat) (d : Router H) (sc : pathScanner) (r : Request)
    (h1 : sc.Len < fuel) (h2 : sc.Len ≤ r.Path.length) :
    match (walk d (scanned sc.path)).bind HandlerFunc with
    | some f => ∃ r1, serveRecPlain fuel d sc r = .served f r1
    | none => serveRecPlain fuel d sc r = .notFound := by
  induction fuel generalizing d sc r with
  | zero => omega
  | succ fuel ih =>
    rw [serveRecPlain, Next_eq_cut, scanned_eq_cut]
    by_cases he : (cut sc.path).1 = []
    · simp only [he, if_true, walk, Option.bind]
      cases hf : d.HandlerFunc with
      | none => simp
      | some f => exact ⟨r, by simp⟩
    · have hlt := cut_snd_lt sc.path he
      simp only [he, if_false, walk, child]
      cases hc : (match mapGet d.routes (cut sc.path).1 with
          | some c => some c
          | none => mapGet d.routes []) with
      | none => simp
      | some route =>
        simp only [pathScanner.Len] at h1 h2 ⊢
        rw [sliceTo_sub r.Path _ _ (Nat.le_of_lt hlt) h2]
        simp only
        rw [TrimPrefix_take r.Path _ (by omega)]
        exact ih route ⟨(cut sc.path).2⟩
          ⟨r.Path.drop (sc.path.length - (cut sc.path).2.length),
            TrimPrefix r.RawPath (r.Path.take (sc.path.length - (cut sc.path).2.length))⟩
          (by simp only [pathScanner.Len]; omega)
          (by simp only [pathScanner.Len, List.length_drop]; omega)

theorem ServeHTTPPlain_spec (d : Router H) (r : Request) (hp : HasPrefix r.Path ['/'] = true) :
    match (walk d (scanned (TrimPrefix (r.Path.drop 1) ['/']))).bind HandlerFunc with
    | some f => ∃ r1, ServeHTTPPlain d r = .served f r1
    | none => ServeHTTPPlain d r = .notFound := by
  simp only [ServeHTTPPlain, hp, Bool.not_true, Bool.false_eq_true, if_false, pathScanner.Reset]
  apply serveRecPlain_spec
  · exact Nat.lt_succ_self _
  · exact TrimPrefix_length_le _ _

theorem outcome_of_spec (o : Outcome H) (x : Option H)
    (h : match x with
      | some f => ∃ r1, o = .served f r1
      | none => o = .notFound) :
    o.handler = x ∧ (o = .notFound ↔ x = none) := by
  cases x with
  | none => simp only at h; subst h; exact ⟨rfl, by simp⟩
  | some f =>
    obtain ⟨r1, h⟩ := h
    subst h
    exact ⟨rfl, by simp⟩

/-- C17: dispatch and its variant without the short-circuit select the same handler, and one
is not-found exactly when the other is. -/
theorem C17_short_circuit_agrees (d : Router H) (r : Request) :
    (ServeHTTP d r).handler = (ServeHTTPPlain d r).handler ∧
    (ServeHTTP d r = .notFound ↔ ServeHTTPPlain d r = .notFound) := by
  by_cases hp : HasPrefix r.Path ['/'] = true
  · have h1 := outcome_of_spec _ _ (ServeHTTP_spec d r hp)
    have h2 := outcome_of_spec _ _ (ServeHTTPPlain_spec d r hp)
    exact ⟨h1.1.trans h2.1.symm, h1.2.trans h2.2.symm⟩
  · have hf : HasPrefix r.Path ['/'] = false := by simpa using hp
    simp [ServeHTTP, ServeHTTPPlain, hf]

/-! ## Backtracking -/

theorem backtrack_of_walk (d : Router H) (segs : List Str) (f : H)
    (h : (walk d segs).bind HandlerFunc = some f) : backtrack d segs = some f := by
  induction segs generalizing d with
  | nil => simpa [walk, Option.bind, backtrack] using h
  | cons s ss ih =>
    simp only [walk, child] at h
    rw [backtrack]
    cases hl : mapGet d.routes s with
    | some c =>
      simp only [hl] at h
      simp only [ih c h]
    | none =>
      simp only [hl] at h
      cases hw : mapGet d.routes [] with
      | none => simp [hw, Option.bind] at h
      | some w =>
        simp only [hw] at h
        simp only [ih w h]

theorem retry_false (d : Router H) (segs : List Str) (h : retry d segs = false) :
    backtrack d segs = (walk d segs).bind HandlerFunc := by
  induction segs generalizing d with
  | nil => simp [walk, Option.bind, backtrack]
  | cons s ss ih =>
    rw [retry] at h
    rw [backtrack]
    simp only [walk, child]
    cases hl : mapGet d.routes s with
    | some c =>
      simp only [hl] at h ⊢
      cases hb : backtrack c ss with
      | some f =>
        simp only [hb] at h ⊢
        rw [← ih c h, hb]
      | none =>
        simp only [hb] at h ⊢
        have hc : (walk c ss).bind HandlerFunc = none := by
          cases hx : (walk c ss).bind HandlerFunc with
          | none => rfl
          | some f => rw [backtrack_of_walk c ss f hx] at hb; cases hb
        rw [hc]
        cases hw : mapGet d.routes [] with
        | none => rfl
        | some w =>
          simp only [hw] at h ⊢
          cases hbw : backtrack w ss with
          | none => rfl
          | some f => rw [hbw] at h; simp at h
    | none =>
      simp only [hl] at h ⊢
      cases hw : mapGet d.routes [] with
      | none => rfl
      | some w =>
        simp only [hw] at h ⊢
        exact ih w h

theorem retry_true (d : Router H) (segs : List Str) (h : retry d segs = true) :
    (walk d segs).bind HandlerFunc = none ∧ (backtrack d segs).isSome = true := by
  induction segs generalizing d with
  | nil => simp [retry] at h
  | cons s ss ih =>
    rw [retry] at h
    rw [backtrack]
    simp only [walk, child]
    cases hl : mapGet d.routes s with
    | some c =>
      simp only [hl] at h ⊢
      cases hb : backtrack c ss with
      | some f =>
        simp only [hb] at h ⊢
        exact ⟨(ih c h).1, rfl⟩
      | none =>
        simp only [hb] at h ⊢
        have hc : (walk c ss).bind HandlerFunc = none := by
          cases hx : (walk c ss).bind HandlerFunc with
          | none => rfl
          | some f => rw [backtrack_of_walk c ss f hx] at hb; cases hb
        refine ⟨hc, ?_⟩
        cases hw : mapGet d.routes [] with
        | none => simp [hw] at h
        | some w =>
          simp only [hw] at h ⊢
          cases hbw : backtrack w ss with
          | none => rw [hbw] at h; simp at h
          | some f => rfl
    | none =>
      simp only [hl] at h ⊢
      cases hw : mapGet d.routes [] with
      | none => simp [hw] at h
      | some w =>
        simp only [hw] at h ⊢
        exact ih w h

/-- C16 (amended): on a path made of the separator and non-empty segments joined by single
separators, a handler that dispatch calls is the handler the backtracking search finds;
dispatch calls the handler the search finds whenever the search does not owe it to a retry
(a wildcard child tried after the literal child for the same segment led to no handler); and
when it does, dispatch is not-found although the search finds a handler. -/
theorem C16_committed_within_backtracking (d : Router H) (segs : List Str) (raw : Str)
    (hsegs : ∀ s ∈ segs, s ≠ [] ∧ '/' ∉ s) :
    (∀ f, (ServeHTTP d ⟨'/' :: joinSlash segs, raw⟩).handler = some f →
      backtrack d segs = some f) ∧
    (retry d segs = false →
      (ServeHTTP d ⟨'/' :: joinSlash segs, raw⟩).handler = backtrack d segs) ∧
    (retry d segs = true →
      ServeHTTP d ⟨'/' :: joinSlash segs, raw⟩ = .notFound ∧
      (backtrack d segs).isSome = true) := by
  have hspec := ServeHTTP_spec d ⟨'/' :: joinSlash segs, raw⟩
    (by simp [HasPrefix, List.isPrefixOf])
  simp only [List.drop_one, List.tail_cons] at hspec
  have hseg : scanned (TrimPrefix (joinSlash segs) ['/']) = segs :=
    pathSegments_joinSlash segs hsegs
  rw [hseg] at hspec
  have ho := outcome_of_spec _ _ hspec
  refine ⟨?_, ?_, ?_⟩
  · intro f hf
    exact backtrack_of_walk d _ f (ho.1.symm.trans hf)
  · intro hr
    rw [ho.1, retry_false d segs hr]
  · intro hr
    have h := retry_true d segs hr
    exact ⟨ho.2.mpr h.1, h.2⟩

end Router

/-- C16 (counterexample): with the patterns `a/b` and `:x/c` registered, the path `/a/c` is an
instance of `:x/c` and the backtracking search finds its handler, while dispatch commits to
the literal child `a` and is not-found. -/
theorem C16_commit_misses_wildcard_route :
    IsInstance ":x/c".toList "a/c".toList ∧
    splitSlash "a/c".toList = ["a".toList, "c".toList] ∧
    Router.backtrack routerC ["a".toList, "c".toList] = some 2 ∧
    Router.ServeHTTP routerC ⟨"/a/c".toList, []⟩ = .notFound := by
  decide

/-- Witness for C16: on the router that holds `a/b` and `:x/c`, whose root has a literal and
a wildcard child, the path `/7/c` calls the handler the backtracking search finds. -/
theorem C16_committed_within_backtracking_witness :
    (Router.ServeHTTP routerC ⟨'/' :: joinSlash ["7".toList, "c".toList], []⟩).handler
      = Router.backtrack routerC ["7".toList, "c".toList] ∧
    Router.backtrack routerC ["7".toList, "c".toList] = some 2 :=
  ⟨(Router.C16_committed_within_backtracking routerC ["7".toList, "c".toList] []
      (by decide)).2.1 (by decide), by decide⟩

namespace Router

variable {H : Type}

/-! ## A router that holds one pattern -/

theorem nextRoute_empty (s : Str) : (empty : Router H).nextRoute s = empty := rfl

theorem walk_single_pattern (segs toks rest : List Str) (f : Option H)
    (hfit : fits segs toks = true) :
    walk ((empty : Router H).insertSegsFunc (segs ++ rest) f) toks
      = some ((empty : Router H).insertSegsFunc rest f) := by
  induction segs generalizing toks with
  | nil => rw [fits_nil_inv toks hfit]; rfl
  | cons s ss ih =>
    obtain ⟨t, ts, rfl, hst, hrest⟩ := fits_cons_inv s ss toks hfit
    rw [List.cons_append, insertSegsFunc_cons, nextRoute_empty]
    have hchild : (((empty : Router H).named s).setRoute (keyOf s)
        ((empty : Router H).insertSegsFunc (ss ++ rest) f)).child t
        = some ((empty : Router H).insertSegsFunc (ss ++ rest) f) := by
      have hr : ((empty : Router H).named s).routes = [] := by rw [routes_named]; rfl
      by_cases hw : HasPrefix s [':'] = true
      · simp only [hw, if_true] at hst
        have hk : keyOf s = [] := by simp [keyOf, hw]
        have hne : ¬ (([] : Str) = t) := fun e => hst e.symm
        simp only [child, routes_setRoute, hr, hk, mapSet, mapGet, hne, if_false, if_true]
      · simp only [hw, if_false] at hst
        have hk : keyOf s = s := by simp [keyOf, hw]
        rw [hk, hst]
        simp only [child, routes_setRoute, mapGet_mapSet_same]
    simp only [walk, hchild]
    exact ih ts hrest

theorem HandlerFunc_insertSegsFunc_cons (d : Router H) (s : Str) (ss : List Str)
    (f : Option H) : (d.insertSegsFunc (s :: ss) f).HandlerFunc = d.HandlerFunc := by
  rw [insertSegsFunc_cons, HandlerFunc_setRoute, HandlerFunc_named]

theorem fits_ne_nil (segs toks : List Str) (hfit : fits segs toks = true)
    (hsegs : ∀ s ∈ segs, s ≠ [] ∧ '/' ∉ s) (htoks : ∀ t ∈ toks, '/' ∉ t) :
    ∀ t ∈ toks, t ≠ [] ∧ '/' ∉ t := by
  induction segs generalizing toks with
  | nil => rw [fits_nil_inv toks hfit]; intro t ht; cases ht
  | cons s ss ih =>
    obtain ⟨t, ts, rfl, hst, hrest⟩ := fits_cons_inv s ss toks hfit
    intro x hx
    rcases List.mem_cons.mp hx with e | e
    · subst e
      refine ⟨?_, htoks x (by simp)⟩
      by_cases hw : HasPrefix s [':'] = true
      · simpa [hw] using hst
      · simp only [hw, if_false] at hst
        rw [hst]; exact (hsegs s (by simp)).1
    · exact ih ts hrest (fun y hy => hsegs y (by simp [hy])) (fun y hy => htoks y (by simp [hy]))
        x e

theorem fits_length (segs toks : List Str) (hfit : fits segs toks = true) :
    toks.length = segs.length := by
  induction segs generalizing toks with
  | nil => rw [fits_nil_inv toks hfit]
  | cons s ss ih =>
    obtain ⟨t, ts, rfl, _, hrest⟩ := fits_cons_inv s ss toks hfit
    simp [ih ts hrest]

/-- C18: on a router that holds one pattern of `n ≥ 1` non-empty segments, inserted with a
handler into the empty router, a path made of the separator and fewer than `n` of the leading
segments (tokens without separator in place of wildcard segments) is not-found, and the path
of all `n` segments calls the handler. -/
theorem C18_intermediate_nodes_not_endpoints (segs toks full : List Str) (f : H) (raw : Str)
    (hsegs : ∀ s ∈ segs, s ≠ [] ∧ '/' ∉ s)
    (hlt : toks.length < segs.length)
    (htoks : ∀ t ∈ toks, '/' ∉ t) (hfit : fits (segs.take toks.length) toks = true)
    (hfull : ∀ t ∈ full, '/' ∉ t) (hfitfull : fits segs full = true) :
    ServeHTTP ((empty : Router H).InsertFunc (joinSlash segs) (some f)).1
        ⟨'/' :: joinSlash toks, raw⟩ = .notFound ∧
    ∃ r1, ServeHTTP ((empty : Router H).InsertFunc (joinSlash segs) (some f)).1
        ⟨'/' :: joinSlash full, raw⟩ = .served f r1 := by
  rw [InsertFunc_eq, pathSegments_joinSlash segs hsegs]
  have hprefix : ∀ x ∈ segs.take toks.length, x ≠ [] ∧ '/' ∉ x :=
    fun x hx => hsegs x (List.mem_of_mem_take hx)
  have htoks1 := fits_ne_nil _ toks hfit hprefix htoks
  have hfull1 := fits_ne_nil segs full hfitfull hsegs hfull
  have spec : ∀ qs : List Str, (∀ t ∈ qs, t ≠ [] ∧ '/' ∉ t) →
      match (walk ((empty : Router H).insertSegsFunc segs (some f)) qs).bind HandlerFunc with
      | some g => ∃ r1, ServeHTTP ((empty : Router H).insertSegsFunc segs (some f))
          ⟨'/' :: joinSlash qs, raw⟩ = .served g r1
      | none => ServeHTTP ((empty : Router H).insertSegsFunc segs (some f))
          ⟨'/' :: joinSlash qs, raw⟩ = .notFound := by
    intro qs hqs
    have h := ServeHTTP_spec ((empty : Router H).insertSegsFunc segs (some f))
      ⟨'/' :: joinSlash qs, raw⟩ (by simp [HasPrefix, List.isPrefixOf])
    simp only [List.drop_one, List.tail_cons] at h
    have hseg : scanned (TrimPrefix (joinSlash qs) ['/']) = qs := pathSegments_joinSlash qs hqs
    rw [hseg] at h
    exact h
  constructor
  · have h := spec toks htoks1
    have hw := walk_single_pattern (segs.take toks.length) toks (segs.drop toks.length)
      (some f) hfit
    rw [List.take_append_drop] at hw
    rw [hw] at h
    cases hd : segs.drop toks.length with
    | nil =>
      have := List.drop_eq_nil_iff.mp hd
      omega
    | cons s ss =>
      rw [hd] at h
      simp only [Option.bind, HandlerFunc_insertSegsFunc_cons] at h
      exact h
  · have h := spec full hfull1
    have hw := walk_single_pattern segs full [] (some f) hfitfull
    rw [List.append_nil] at hw
    rw [hw] at h
    simp only [Option.bind, insertSegsFunc_nil, HandlerFunc_setHandlerFunc] at h
    exact h

end Router

/-- Witness for C18: the pattern `a/:x/b`, the paths `/a/123` and `/a/123/b`. -/
theorem C18_intermediate_nodes_not_endpoints_witness :
    Router.ServeHTTP ((Router.empty : Router Nat).InsertFunc
        (joinSlash ["a".toList, ":x".toList, "b".toList]) (some 1)).1
        ⟨'/' :: joinSlash ["a".toList, "123".toList], []⟩ = .notFound ∧
    ∃ r1, Router.ServeHTTP ((Router.empty : Router Nat).InsertFunc
        (joinSlash ["a".toList, ":x".toList, "b".toList]) (some 1)).1
        ⟨'/' :: joinSlash ["a".toList, "123".toList, "b".toList], []⟩ = .served 1 r1 :=
  Router.C18_intermediate_nodes_not_endpoints ["a".toList, ":x".toList, "b".toList]
    ["a".toList, "123".toList] ["a".toList, "123".toList, "b".toList] 1 []
    (by decide) (by decide) (by decide) (by decide) (by decide) (by decide)

namespace Router

variable {H : Type}

/-! ## The request path and the scanner along the calls of `serveRec` -/

theorem serveTrace_length_le (fuel : Nat) (d : Router H) (sc : pathScanner) (r : Request)
    (h : sc.Len ≤ r.Path.length) :
    ∀ e ∈ serveTrace fuel d sc r, e.1.Len ≤ e.2.Path.length := by
  induction fuel generalizing d sc r with
  | zero => intro e he; cases he
  | succ fuel ih =>
    intro e he
    rw [serveTrace, Next_eq_cut] at he
    have here : ∀ x ∈ [(sc, r)], x.1.Len ≤ x.2.Path.length := by
      intro x hx
      rw [List.mem_singleton.mp hx]; exact h
    by_cases hel : (cut sc.path).1 = []
    · simp only [hel, if_true] at he
      exact here e he
    · have hlt := cut_snd_lt sc.path hel
      simp only [hel, if_false] at he
      cases hc : (match mapGet d.routes (cut sc.path).1 with
          | some c => some c
          | none => mapGet d.routes []) with
      | none =>
        rw [hc] at he
        exact here e he
      | some route =>
        rw [hc] at he
        simp only [pathScanner.Len] at h he
        rw [sliceTo_sub r.Path _ _ (Nat.le_of_lt hlt) h] at he
        simp only at he
        rw [TrimPrefix_take r.Path _ (by omega)] at he
        cases hm : (if r.Path.drop (sc.path.length - (cut sc.path).2.length) = []
            then route.HandlerFunc else none) with
        | some f =>
          rw [hm] at he
          exact here e he
        | none =>
          rw [hm] at he
          rcases List.mem_cons.mp he with e1 | e1
          · rw [e1]; exact h
          · exact ih route _ _
              (by simp only [pathScanner.Len, List.length_drop]; omega) e e1

theorem serveTrace_aligned (fuel : Nat) (d : Router H) (sc : pathScanner) (r : Request)
    (h : r.Path = sc.path) :
    ∀ e ∈ serveTrace fuel d sc r, e.2.Path = e.1.path := by
  induction fuel generalizing d sc r with
  | zero => intro e he; cases he
  | succ fuel ih =>
    intro e he
    rw [serveTrace, Next_eq_cut] at he
    have here : ∀ x ∈ [(sc, r)], x.2.Path = x.1.path := by
      intro x hx
      rw [List.mem_singleton.mp hx]; exact h
    by_cases hel : (cut sc.path).1 = []
    · simp only [hel, if_true] at he
      exact here e he
    · have hlt := cut_snd_lt sc.path hel
      have hlen := cut_length sc.path
      simp only [hel, if_false] at he
      cases hc : (match mapGet d.routes (cut sc.path).1 with
          | some c => some c
          | none => mapGet d.routes []) with
      | none =>
        rw [hc] at he
        exact here e he
      | some route =>
        rw [hc] at he
        simp only [pathScanner.Len] at he
        rw [sliceTo_sub r.Path _ _ (Nat.le_of_lt hlt) (by rw [h])] at he
        simp only at he
        rw [TrimPrefix_take r.Path _ (by rw [h]; omega)] at he
        have hdrop : r.Path.drop (sc.path.length - (cut sc.path).2.length) = (cut sc.path).2 := by
          rw [h]
          by_cases hs : '/' ∈ sc.path
          · have hsplit := mem_slash_split sc.path hs
            have hk : sc.path.length - (cut sc.path).2.length = (cut sc.path).1.length + 1 := by
              simp only [hs, if_true] at hlen; omega
            rw [hk]
            have key : ∀ (p a b : Str), p = a ++ '/' :: b → p.drop (a.length + 1) = b := by
              intro p a b hpab
              subst hpab
              have e1 : a ++ '/' :: b = (a ++ ['/']) ++ b := by simp
              rw [e1]
              exact List.drop_left' (by simp)
            exact key _ _ _ hsplit
          · have hcut := cut_of_no_slash sc.path hs
            rw [hcut]
            simp
        cases hm : (if r.Path.drop (sc.path.length - (cut sc.path).2.length) = []
            then route.HandlerFunc else none) with
        | some f =>
          rw [hm] at he
          exact here e he
        | none =>
          rw [hm] at he
          rcases List.mem_cons.mp he with e1 | e1
          · rw [e1]; exact h
          · exact ih route _ _ hdrop e e1

theorem ServeHTTPTrace_aligned (d : Router H) (r : Request) (t : Str)
    (hp : r.Path = '/' :: t) (ht : ∀ u, t ≠ '/' :: u) :
    ∀ e ∈ ServeHTTPTrace d r, e.2.Path = e.1.path := by
  intro e he
  have hpre : HasPrefix r.Path ['/'] = true := by rw [hp]; simp [HasPrefix, List.isPrefixOf]
  simp only [ServeHTTPTrace, hpre, Bool.not_true, Bool.false_eq_true, if_false,
    pathScanner.Reset] at he
  refine serveTrace_aligned _ d ⟨TrimPrefix (r.Path.drop 1) ['/']⟩
    ⟨r.Path.drop 1, TrimPrefix r.RawPath ['/']⟩ ?_ e he
  simp only [hp, List.drop_one, List.tail_cons]
  exact (TrimPrefix_slash_of_head t ht).symm

/-- C20: for a path that begins with the separator, at each call of `serveRec` the number of
characters the scanner consumes lies between 0 and the length of the request path, the slice
of that many leading characters is defined, and dispatch does not fail on a slice. -/
theorem C20_slice_in_range (d : Router H) (r : Request) (t : Str) (hp : r.Path = '/' :: t) :
    (∀ e ∈ ServeHTTPTrace d r,
      (0 : Int) ≤ (e.1.Len : Int) - (e.1.Next.2.Len : Int) ∧
      (e.1.Len : Int) - (e.1.Next.2.Len : Int) ≤ (e.2.Path.length : Int) ∧
      (sliceTo e.2.Path ((e.1.Len : Int) - (e.1.Next.2.Len : Int))).isSome = true) ∧
    ServeHTTP d r ≠ .panicked ∧ ServeHTTP d r ≠ .outOfFuel := by
  have hpre : HasPrefix r.Path ['/'] = true := by rw [hp]; simp [HasPrefix, List.isPrefixOf]
  constructor
  · intro e he
    simp only [ServeHTTPTrace, hpre, Bool.not_true, Bool.false_eq_true, if_false,
      pathScanner.Reset] at he
    have hle := serveTrace_length_le _ d ⟨TrimPrefix (r.Path.drop 1) ['/']⟩
      ⟨r.Path.drop 1, TrimPrefix r.RawPath ['/']⟩ (TrimPrefix_length_le _ _) e he
    have hnext : e.1.Next.2.Len ≤ e.1.Len := by
      rw [Next_eq_cut]; exact cut_snd_le _
    have h1 : (0 : Int) ≤ (e.1.Len : Int) - (e.1.Next.2.Len : Int) := by omega
    have h2 : (e.1.Len : Int) - (e.1.Next.2.Len : Int) ≤ (e.2.Path.length : Int) := by omega
    refine ⟨h1, h2, ?_⟩
    simp [sliceTo, h1, h2]
  · have h := (outcome_of_spec _ _ (ServeHTTP_spec d r hpre))
    cases hx : (walk d (scanned (TrimPrefix (r.Path.drop 1) ['/']))).bind HandlerFunc with
    | none =>
      have := h.2.mpr hx
      rw [this]
      exact ⟨by simp, by simp⟩
    | some f =>
      have hh := h.1
      rw [hx] at hh
      constructor
      · intro e; rw [e] at hh; cases hh
      · intro e; rw [e] at hh; cases hh

end Router

/-- Witness for C20: the path `//test/xyz` on the router of `TestRouter`. -/
theorem C20_slice_in_range_witness :
    Router.ServeHTTP testRouter ⟨"//test/xyz".toList, []⟩ ≠ .panicked :=
  (Router.C20_slice_in_range testRouter ⟨"//test/xyz".toList, []⟩ "/test/xyz".toList rfl).2.1

/-- C15 (failing input): for the path `//test/xyz` on the router of `TestRouter`, `ServeHTTP`
strips one separator from the request path and `Reset` one more from the text it scans: at
each call of `serveRec` the request path is one character longer than what the scanner still
holds, and the handler is called with the request path `z`. -/
theorem C15_double_slash_misaligns :
    Router.ServeHTTPTrace testRouter ⟨"//test/xyz".toList, []⟩ =
      [(⟨"test/xyz".toList⟩, ⟨"/test/xyz".toList, []⟩),
       (⟨"xyz".toList⟩, ⟨"/xyz".toList, []⟩),
       (⟨[]⟩, ⟨"z".toList, []⟩)] ∧
    Router.ServeHTTP testRouter ⟨"//test/xyz".toList, []⟩
      = .served TestHandler.writeId ⟨"z".toList, []⟩ ∧
    TestHandler.write .writeId ⟨"z".toList, []⟩ = "id=z".toList := by
  decide

/-- C19 (failing input): the request for `/%61/b` has the path `/a/b` and the raw path
`/%61/b`, of three segments each; after the step that consumes `a` the path is `b`, of one
segment, while the raw path is still `%61/b`, of two, and so the handler receives them. -/
theorem C19_raw_path_not_trimmed :
    (splitSlash "/a/b".toList).length = (splitSlash "/%61/b".toList).length ∧
    Router.ServeHTTPTrace routerA ⟨"/a/b".toList, "/%61/b".toList⟩ =
      [(⟨"a/b".toList⟩, ⟨"a/b".toList, "%61/b".toList⟩),
       (⟨"b".toList⟩, ⟨"b".toList, "%61/b".toList⟩)] ∧
    (splitSlash "b".toList).length = 1 ∧ (splitSlash "%61/b".toList).length = 2 ∧
    Router.ServeHTTP routerA ⟨"/a/b".toList, "/%61/b".toList⟩
      = .served 1 ⟨"b".toList, "%61/b".toList⟩ := by
  decide

end router
